import Mathlib

/-!
Verification development for the `di` dependency-injection container
(package `di`: `graph.go` and the container source file).

The embedding models Go values explicitly:
* `reflect.Type` values are modelled by `RType` (with the reserved
  `ContextParams` marker type as the distinguished constructor `RType.ctx`);
  the Go `nil` interface value that `Register` feeds to
  `addDependency(outType, nil)` is modelled by `none : Node`.
* Go maps are modelled as association lists with unique-key update
  (`updA`) and first-match lookup (`lookupA`).  Go map iteration order is
  unspecified, so every loop of the source that ranges over a map is
  parameterised by an explicit traversal order list, and theorems quantify
  over those orders.
* Mutable state shared by reference across a container family
  (graph, constructors, lifetimes, singleton cache, the heap of scoped
  caches, the allocation counter and the constructor-call trace) lives in
  a `World` record that every operation threads explicitly.  A `Container`
  value holds only the per-container data of the Go struct: the reference
  to its scoped cache, its (immutable after creation) context map and its
  `scope` field.
* A constructor invocation allocates a fresh identity (`Value.obj t id`),
  so "identical instance" claims become equalities of allocation ids.
* Outcomes distinguish returned Go errors (`Outcome.err`), a Go runtime
  panic such as calling a nil function value (`Outcome.crash`), and
  exhaustion of the recursion fuel of the model (`Outcome.spin`), which
  corresponds to non-termination of the source.
-/

namespace DI

/-- Association-list lookup: first matching key, like a Go map read. -/
def lookupA {α β : Type} [DecidableEq α] : List (α × β) → α → Option β
  | [], _ => none
  | (k, v) :: t, a => if k = a then some v else lookupA t a

/-- Association-list write, like a Go map write: replace the first entry
with the given key, or append a new entry. -/
def updA {α β : Type} [DecidableEq α] : List (α × β) → α → β → List (α × β)
  | [], a, b => [(a, b)]
  | (k, v) :: t, a, b => if k = a then (a, b) :: t else (k, v) :: updA t a b

theorem lookupA_updA_self {α β : Type} [DecidableEq α] (l : List (α × β)) (a : α) (b : β) :
    lookupA (updA l a b) a = some b := by
  induction l with
  | nil => simp [lookupA, updA]
  | cons h t ih =>
    obtain ⟨k, v⟩ := h
    by_cases hk : k = a
    · simp [lookupA, updA, hk]
    · simp [lookupA, updA, hk, ih]

theorem lookupA_updA_other {α β : Type} [DecidableEq α] (l : List (α × β)) (a a' : α) (b : β)
    (h : a ≠ a') : lookupA (updA l a b) a' = lookupA l a' := by
  induction l with
  | nil => simp [lookupA, updA, h]
  | cons hd t ih =>
    obtain ⟨k, v⟩ := hd
    by_cases hk : k = a
    · subst hk
      simp [lookupA, updA, h]
    · simp only [updA, if_neg hk, lookupA]
      by_cases hk' : k = a'
      · simp [hk']
      · simp [hk', ih]

theorem lookupA_mem {α β : Type} [DecidableEq α] {l : List (α × β)} {a : α} {b : β}
    (h : lookupA l a = some b) : (a, b) ∈ l := by
  induction l with
  | nil => simp [lookupA] at h
  | cons hd t ih =>
    obtain ⟨k, v⟩ := hd
    by_cases hk : k = a
    · subst hk
      simp [lookupA] at h
      simp [h]
    · simp only [lookupA, if_neg hk] at h
      exact List.mem_cons_of_mem _ (ih h)

theorem lookupA_isSome_of_mem {α β : Type} [DecidableEq α] {l : List (α × β)} {a : α} {b : β}
    (h : (a, b) ∈ l) : (lookupA l a).isSome := by
  induction l with
  | nil => simp at h
  | cons hd t ih =>
    obtain ⟨k, v⟩ := hd
    rcases List.mem_cons.mp h with heq | hmem
    · cases heq
      simp [lookupA]
    · by_cases hk : k = a
      · simp [lookupA, hk]
      · simpa [lookupA, hk] using ih hmem

/-- A Go `reflect.Type` as used by the container: the reserved
`ContextParams` marker type (`contextParamsType`) or an ordinary type. -/
inductive RType where
  | ctx : RType
  | ty : Nat → RType
deriving DecidableEq, Repr

/-- A node of the dependency graph: a Go `reflect.Type` map key, where
`none` models the `nil` interface value that `Register` inserts via
`addDependency(outType, nil)`. -/
abbrev Node := Option RType

/-- `dependencyGraph.deps`: adjacency map from a node to the slice of its
dependency edges, as an association list (one entry per Go map key). -/
abbrev Graph := List (Node × List Node)

/-- The empty graph of `newDependencyGraph`. -/
def newDependencyGraph : Graph := []

/-- `addDependency(from, to)` appends `to` to the edge slice of `from`. -/
def addDependency (g : Graph) (f t : Node) : Graph :=
  match lookupA g f with
  | some l => updA g f (l ++ [t])
  | none => g ++ [(f, [t])]

/-- The edge slice of a node (`graph.deps[t]`; a missing key reads as the
empty slice, like a nil Go slice). -/
def succs (g : Graph) (t : Node) : List Node := (lookupA g t).getD []

/-- The keys of the adjacency map. -/
def keysOf (g : Graph) : List Node := g.map Prod.fst

/-- Every node mentioned by the graph: keys and edge targets. -/
def allNodes (g : Graph) : List Node := g.foldr (fun p acc => p.1 :: p.2 ++ acc) []

/-- The edge relation of the dependency graph. -/
def Edge (g : Graph) (a b : Node) : Prop := b ∈ succs g a

instance (g : Graph) (a b : Node) : Decidable (Edge g a b) := by
  unfold Edge; infer_instance

/-- A directed cycle exists: some node reaches itself in at least one step. -/
def hasCycle (g : Graph) : Prop := ∃ t, Relation.TransGen (Edge g) t t

/-- Result of one `isCyclic` DFS call: `cyc d` models the return
`(true, d)`, `clear` models `(false, nil)`, and `fuelOut` marks
exhaustion of the model's recursion fuel (unreachable for the fuel the
detector supplies, as proved below). -/
inductive DfsRes where
  | fuelOut : DfsRes
  | cyc : Node → DfsRes
  | clear : DfsRes
deriving DecidableEq, Repr

/-- The `for _, dep := range graph.deps[t]` loop of `isCyclic`,
parameterised by the recursive call `step`.  On a cyclic child the loop
returns the loop variable `dep` (the Go code discards the inner witness). -/
def depsLoop (step : Node → List Node → List Node → DfsRes × List Node × List Node) :
    List Node → List Node → List Node → DfsRes × List Node × List Node
  | [], vis, rs => (.clear, vis, rs)
  | d :: ds, vis, rs =>
    match step d vis rs with
    | (.clear, vis', rs') => depsLoop step ds vis' rs'
    | (.cyc _, vis', rs') => (.cyc d, vis', rs')
    | (.fuelOut, vis', rs') => (.fuelOut, vis', rs')

/-- `isCyclic(t, visited, recStack)` with explicit fuel.  The mutated
`visited` and `recStack` maps are threaded and returned; clearing the
on-stack mark on backtrack is `List.erase`. -/
def isCyclicF (g : Graph) : Nat → Node → List Node → List Node → DfsRes × List Node × List Node
  | 0, _, vis, rs => (.fuelOut, vis, rs)
  | f + 1, t, vis, rs =>
    if t ∈ rs then (.cyc t, vis, rs)
    else if t ∈ vis then (.clear, vis, rs)
    else
      match depsLoop (isCyclicF g f) (succs g t) (t :: vis) (t :: rs) with
      | (.clear, vis', rs') => (.clear, vis', rs'.erase t)
      | (.cyc d, vis', rs') => (.cyc d, vis', rs')
      | (.fuelOut, vis', rs') => (.fuelOut, vis', rs')

/-- Fuel that provably suffices for the DFS: one more than the number of
distinct nodes of the graph. -/
def dfsFuel (g : Graph) : Nat := (allNodes g).dedup.length + 1

/-- Result of `detectCyclicDependencies`: `found t dep` models the
`cyclic dependency detected between t and dep` error. -/
inductive DetectRes where
  | fuelOut : DetectRes
  | found : Node → Node → DetectRes
  | clean : DetectRes
deriving DecidableEq, Repr

/-- The `for t := range graph.deps` loop of `detectCyclicDependencies`
over an explicit key traversal `order` (Go map iteration is unordered). -/
def detectLoop (g : Graph) : List Node → List Node → List Node → DetectRes
  | [], _, _ => .clean
  | t :: ts, vis, rs =>
    match isCyclicF g (dfsFuel g) t vis rs with
    | (.cyc dep, _, _) => .found t dep
    | (.clear, vis', rs') => detectLoop g ts vis' rs'
    | (.fuelOut, _, _) => .fuelOut

/-- `detectCyclicDependencies`, parameterised by the unordered key
traversal of the Go map range. -/
def detectCyclicDependencies (g : Graph) (order : List Node) : DetectRes :=
  detectLoop g order [] []

theorem depsLoop_mono_restore
    (step : Node → List Node → List Node → DfsRes × List Node × List Node)
    (hmono : ∀ d vis rs, vis ⊆ (step d vis rs).2.1)
    (hres : ∀ d vis rs out vis' rs', step d vis rs = (out, vis', rs') → out = .clear → rs' = rs) :
    ∀ ds vis rs, vis ⊆ (depsLoop step ds vis rs).2.1 ∧
      (∀ out vis' rs', depsLoop step ds vis rs = (out, vis', rs') → out = .clear → rs' = rs) := by
  intro ds
  induction ds with
  | nil =>
    intro vis rs
    constructor
    · intro x hx; simpa [depsLoop] using hx
    · intro out vis' rs' h hout
      subst hout
      simp [depsLoop] at h
      exact h.2.symm
  | cons d ds ih =>
    intro vis rs
    rcases hstep : step d vis rs with ⟨out₁, vis₁, rs₁⟩
    have hmono₁ : vis ⊆ vis₁ := by
      have := hmono d vis rs
      rw [hstep] at this
      exact this
    cases out₁ with
    | clear =>
      have hrs₁ : rs₁ = rs := hres d vis rs _ _ _ hstep rfl
      constructor
      · have := (ih vis₁ rs₁).1
        simpa [depsLoop, hstep] using hmono₁.trans this
      · intro out vis' rs' h hout
        rw [show depsLoop step (d :: ds) vis rs = depsLoop step ds vis₁ rs₁ by
          simp [depsLoop, hstep]] at h
        exact (hrs₁ ▸ (ih vis₁ rs₁).2 out vis' rs' h hout)
    | cyc w =>
      constructor
      · intro x hx
        simpa [depsLoop, hstep] using hmono₁ hx
      · intro out vis' rs' h hout
        subst hout
        simp [depsLoop, hstep] at h
    | fuelOut =>
      constructor
      · intro x hx
        simpa [depsLoop, hstep] using hmono₁ hx
      · intro out vis' rs' h hout
        subst hout
        simp [depsLoop, hstep] at h

theorem isCyclicF_mono_restore (g : Graph) :
    ∀ f t vis rs, vis ⊆ (isCyclicF g f t vis rs).2.1 ∧
      (∀ out vis' rs', isCyclicF g f t vis rs = (out, vis', rs') → out = .clear → rs' = rs) := by
  intro f
  induction f with
  | zero =>
    intro t vis rs
    refine ⟨by simp [isCyclicF], ?_⟩
    intro out vis' rs' h hout
    subst hout
    simp [isCyclicF] at h
  | succ f ih =>
    intro t vis rs
    by_cases hrs : t ∈ rs
    · refine ⟨by simp [isCyclicF, hrs], ?_⟩
      intro out vis' rs' h hout
      subst hout
      simp [isCyclicF, hrs] at h
    · by_cases hvis : t ∈ vis
      · refine ⟨by simp [isCyclicF, hrs, hvis], ?_⟩
        intro out vis' rs' h hout
        subst hout
        simp [isCyclicF, hrs, hvis] at h
        exact h.2.symm
      · have hloop := depsLoop_mono_restore (isCyclicF g f)
          (fun d v r => (ih d v r).1) (fun d v r => (ih d v r).2)
          (succs g t) (t :: vis) (t :: rs)
        rcases hd : depsLoop (isCyclicF g f) (succs g t) (t :: vis) (t :: rs)
          with ⟨out₁, vis₁, rs₁⟩
        have hm : t :: vis ⊆ vis₁ := by
          have := hloop.1
          rw [hd] at this
          exact this
        cases out₁ with
        | clear =>
          have hr : rs₁ = t :: rs := hloop.2 _ _ _ hd rfl
          constructor
          · intro x hx
            simp only [isCyclicF, if_neg hrs, if_neg hvis, hd]
            exact hm (List.mem_cons_of_mem _ hx)
          · intro out vis' rs' h hout
            subst hout
            simp only [isCyclicF, if_neg hrs, if_neg hvis, hd] at h
            injection h with h1 h23
            injection h23 with h2 h3
            rw [← h3, hr, List.erase_cons_head]
        | cyc w =>
          constructor
          · intro x hx
            simp only [isCyclicF, if_neg hrs, if_neg hvis, hd]
            exact hm (List.mem_cons_of_mem _ hx)
          · intro out vis' rs' h hout
            subst hout
            simp only [isCyclicF, if_neg hrs, if_neg hvis, hd] at h
            exact absurd h (by simp)
        | fuelOut =>
          constructor
          · intro x hx
            simp only [isCyclicF, if_neg hrs, if_neg hvis, hd]
            exact hm (List.mem_cons_of_mem _ hx)
          · intro out vis' rs' h hout
            subst hout
            simp only [isCyclicF, if_neg hrs, if_neg hvis, hd] at h
            exact absurd h (by simp)

theorem stack_reach {g : Graph} : ∀ (rest : List Node) (h t : Node),
    List.Chain' (fun a b => Edge g b a) (h :: rest) → t ∈ h :: rest →
    Relation.ReflTransGen (Edge g) t h := by
  intro rest
  induction rest with
  | nil =>
    intro h t _ hmem
    rcases List.mem_cons.mp hmem with he | he
    · subst he; exact Relation.ReflTransGen.refl
    · simp at he
  | cons h₂ rest ih =>
    intro h t hchain hmem
    have hedge : Edge g h₂ h := (List.chain'_cons.mp hchain).1
    have hchain₂ : List.Chain' (fun a b => Edge g b a) (h₂ :: rest) :=
      (List.chain'_cons.mp hchain).2
    rcases List.mem_cons.mp hmem with he | he
    · subst he; exact Relation.ReflTransGen.refl
    · exact Relation.ReflTransGen.tail (ih h₂ t hchain₂ he) hedge

theorem depsLoop_sound {P : Prop}
    (step : Node → List Node → List Node → DfsRes × List Node × List Node)
    (rs₀ : List Node)
    (hres : ∀ d vis out vis' rs', step d vis rs₀ = (out, vis', rs') → out = .clear → rs' = rs₀) :
    ∀ ds, (∀ d ∈ ds, ∀ vis d' vis' rs', step d vis rs₀ = (.cyc d', vis', rs') → P) →
    ∀ vis d' vis' rs', depsLoop step ds vis rs₀ = (.cyc d', vis', rs') → P := by
  intro ds
  induction ds with
  | nil =>
    intro _ vis d' vis' rs' h
    simp [depsLoop] at h
  | cons d ds ih =>
    intro hstep vis d' vis' rs' h
    rcases hs : step d vis rs₀ with ⟨out₁, vis₁, rs₁⟩
    cases out₁ with
    | fuelOut => simp [depsLoop, hs] at h
    | cyc w => exact hstep d (List.mem_cons_self d ds) vis w vis₁ rs₁ hs
    | clear =>
      have hrs₁ : rs₁ = rs₀ := hres d vis _ _ _ hs rfl
      rw [show depsLoop step (d :: ds) vis rs₀ = depsLoop step ds vis₁ rs₀ by
        simp [depsLoop, hs, hrs₁]] at h
      exact ih (fun x hx => hstep x (List.mem_cons_of_mem d hx)) vis₁ d' vis' rs' h

theorem isCyclicF_sound (g : Graph) : ∀ f t vis rs,
    List.Chain' (fun a b => Edge g b a) rs →
    (rs = [] ∨ ∃ h rest, rs = h :: rest ∧ Edge g h t) →
    ∀ d vis' rs', isCyclicF g f t vis rs = (.cyc d, vis', rs') → hasCycle g := by
  intro f
  induction f with
  | zero =>
    intro t vis rs _ _ d vis' rs' h
    simp [isCyclicF] at h
  | succ f ih =>
    intro t vis rs hchain hlink d vis' rs' h
    by_cases hrs : t ∈ rs
    · rcases hlink with hnil | ⟨hd, rest, hcons, hedge⟩
      · subst hnil; simp at hrs
      · subst hcons
        have hreach : Relation.ReflTransGen (Edge g) t hd := stack_reach rest hd t hchain hrs
        exact ⟨t, Relation.TransGen.tail' hreach hedge⟩
    · by_cases hvis : t ∈ vis
      · simp [isCyclicF, hrs, hvis] at h
      · simp only [isCyclicF, if_neg hrs, if_neg hvis] at h
        have hchain₁ : List.Chain' (fun a b => Edge g b a) (t :: rs) := by
          rcases hlink with hnil | ⟨hd, rest, hcons, hedge⟩
          · subst hnil; simp
          · subst hcons
            exact List.chain'_cons.mpr ⟨hedge, hchain⟩
        have hres := fun d vis out vis' rs' heq hout =>
          (isCyclicF_mono_restore g f d vis (t :: rs)).2 out vis' rs' heq hout
        have hsound : ∀ x ∈ succs g t, ∀ vis₂ d' vis₂' rs₂',
            isCyclicF g f x vis₂ (t :: rs) = (.cyc d', vis₂', rs₂') → hasCycle g := by
          intro x hx vis₂ d' vis₂' rs₂' heq
          exact ih x vis₂ (t :: rs) hchain₁ (Or.inr ⟨t, rs, rfl, hx⟩) d' vis₂' rs₂' heq
        rcases hdl : depsLoop (isCyclicF g f) (succs g t) (t :: vis) (t :: rs)
          with ⟨out₁, vis₁, rs₁⟩
        cases out₁ with
        | fuelOut => rw [hdl] at h; exact absurd h (by simp)
        | clear => rw [hdl] at h; exact absurd h (by simp)
        | cyc w =>
          exact depsLoop_sound (isCyclicF g f) (t :: rs) hres (succs g t) hsound
            (t :: vis) w vis₁ rs₁ hdl

theorem detectLoop_sound (g : Graph) : ∀ order vis t dep,
    detectLoop g order vis [] = .found t dep → hasCycle g := by
  intro order
  induction order with
  | nil => intro vis t dep h; simp [detectLoop] at h
  | cons x xs ih =>
    intro vis t dep h
    rcases hs : isCyclicF g (dfsFuel g) x vis [] with ⟨out₁, vis₁, rs₁⟩
    cases out₁ with
    | fuelOut => simp [detectLoop, hs] at h
    | cyc w =>
      exact isCyclicF_sound g (dfsFuel g) x vis [] (by simp) (Or.inl rfl) w vis₁ rs₁ hs
    | clear =>
      have hrs₁ : rs₁ = [] := (isCyclicF_mono_restore g (dfsFuel g) x vis []).2 _ _ _ hs rfl
      subst hrs₁
      rw [show detectLoop g (x :: xs) vis [] = detectLoop g xs vis₁ [] by
        simp [detectLoop, hs]] at h
      exact ih vis₁ t dep h

theorem depsLoop_mono
    (step : Node → List Node → List Node → DfsRes × List Node × List Node)
    (hmono : ∀ d vis rs, vis ⊆ (step d vis rs).2.1) :
    ∀ ds vis rs, vis ⊆ (depsLoop step ds vis rs).2.1 := by
  intro ds
  induction ds with
  | nil => intro vis rs; simp [depsLoop]
  | cons d ds ih =>
    intro vis rs
    rcases hs : step d vis rs with ⟨out₁, vis₁, rs₁⟩
    have hmono₁ : vis ⊆ vis₁ := by
      have := hmono d vis rs
      rw [hs] at this
      exact this
    cases out₁ with
    | fuelOut => intro x hx; simpa [depsLoop, hs] using hmono₁ hx
    | cyc w => intro x hx; simpa [depsLoop, hs] using hmono₁ hx
    | clear =>
      intro x hx
      simpa [depsLoop, hs] using ih vis₁ rs₁ (hmono₁ hx)

/-- DFS completeness invariant: every visited node that is off the
recursion stack has all its successors visited and lies on no cycle. -/
def Inv (g : Graph) (V S : List Node) : Prop :=
  ∀ v ∈ V, v ∉ S → (∀ u, Edge g v u → u ∈ V) ∧ ¬ Relation.TransGen (Edge g) v v

theorem depsLoop_complete (g : Graph)
    (step : Node → List Node → List Node → DfsRes × List Node × List Node)
    (rs₀ : List Node)
    (hmono : ∀ d vis rs, vis ⊆ (step d vis rs).2.1)
    (hres : ∀ d vis out vis' rs', step d vis rs₀ = (out, vis', rs') → out = .clear → rs' = rs₀)
    (hstep : ∀ d vis vis' rs', Inv g vis rs₀ → step d vis rs₀ = (.clear, vis', rs') →
      Inv g vis' rs₀ ∧ d ∈ vis' ∧ d ∉ rs₀) :
    ∀ ds vis vis' rs', Inv g vis rs₀ → depsLoop step ds vis rs₀ = (.clear, vis', rs') →
      Inv g vis' rs₀ ∧ ∀ d ∈ ds, d ∈ vis' ∧ d ∉ rs₀ := by
  intro ds
  induction ds with
  | nil =>
    intro vis vis' rs' hinv h
    simp [depsLoop] at h
    exact ⟨h.1 ▸ hinv, by simp⟩
  | cons d ds ih =>
    intro vis vis' rs' hinv h
    rcases hs : step d vis rs₀ with ⟨out₁, vis₁, rs₁⟩
    cases out₁ with
    | fuelOut => simp [depsLoop, hs] at h
    | cyc w => simp [depsLoop, hs] at h
    | clear =>
      have hrs₁ : rs₁ = rs₀ := hres d vis _ _ _ hs rfl
      have hstep₁ := hstep d vis vis₁ rs₁ hinv (by rw [hs, hrs₁])
      rw [show depsLoop step (d :: ds) vis rs₀ = depsLoop step ds vis₁ rs₀ by
        simp [depsLoop, hs, hrs₁]] at h
      have hrest := ih vis₁ vis' rs' hstep₁.1 h
      refine ⟨hrest.1, ?_⟩
      intro x hx
      rcases List.mem_cons.mp hx with he | he
      · subst he
        refine ⟨?_, hstep₁.2.2⟩
        have hsub : vis₁ ⊆ (depsLoop step ds vis₁ rs₀).2.1 :=
          depsLoop_mono step hmono ds vis₁ rs₀
        rw [h] at hsub
        exact hsub hstep₁.2.1
      · exact hrest.2 x he

theorem isCyclicF_complete (g : Graph) : ∀ f t vis rs vis' rs',
    Inv g vis rs → isCyclicF g f t vis rs = (.clear, vis', rs') →
    Inv g vis' rs ∧ t ∈ vis' ∧ t ∉ rs := by
  intro f
  induction f with
  | zero =>
    intro t vis rs vis' rs' _ h
    simp [isCyclicF] at h
  | succ f ih =>
    intro t vis rs vis' rs' hinv h
    by_cases hrs : t ∈ rs
    · simp [isCyclicF, hrs] at h
    · by_cases hvis : t ∈ vis
      · simp [isCyclicF, hrs, hvis] at h
        exact ⟨h.1 ▸ hinv, h.1 ▸ hvis, hrs⟩
      · simp only [isCyclicF, if_neg hrs, if_neg hvis] at h
        have hinv₁ : Inv g (t :: vis) (t :: rs) := by
          intro v hv hvs
          have hvt : v ≠ t := fun he => hvs (he ▸ List.mem_cons_self t rs)
          have hv' : v ∈ vis := by
            rcases List.mem_cons.mp hv with he | he
            · exact absurd he hvt
            · exact he
          have hvs' : v ∉ rs := fun hc => hvs (List.mem_cons_of_mem t hc)
          have := hinv v hv' hvs'
          exact ⟨fun u hu => List.mem_cons_of_mem t (this.1 u hu), this.2⟩
        have hmono := fun d v r => (isCyclicF_mono_restore g f d v r).1
        have hres := fun d vis out vis' rs' heq hout =>
          (isCyclicF_mono_restore g f d vis (t :: rs)).2 out vis' rs' heq hout
        have hstep : ∀ d vis₂ vis₂' rs₂', Inv g vis₂ (t :: rs) →
            isCyclicF g f d vis₂ (t :: rs) = (.clear, vis₂', rs₂') →
            Inv g vis₂' (t :: rs) ∧ d ∈ vis₂' ∧ d ∉ t :: rs := by
          intro d vis₂ vis₂' rs₂' hi he
          exact ih d vis₂ (t :: rs) vis₂' rs₂' hi he
        rcases hdl : depsLoop (isCyclicF g f) (succs g t) (t :: vis) (t :: rs)
          with ⟨out₁, vis₁, rs₁⟩
        cases out₁ with
        | fuelOut => rw [hdl] at h; exact absurd h (by simp)
        | cyc w => rw [hdl] at h; exact absurd h (by simp)
        | clear =>
          have hloop := depsLoop_complete g (isCyclicF g f) (t :: rs) hmono hres hstep
            (succs g t) (t :: vis) vis₁ rs₁ hinv₁ hdl
          rw [hdl] at h
          injection h with h1 h23
          injection h23 with h2 h3
          subst h2
          have htv : t ∈ vis₁ := by
            have hsub := depsLoop_mono (isCyclicF g f) hmono (succs g t) (t :: vis) (t :: rs)
            rw [hdl] at hsub
            exact hsub (List.mem_cons_self t vis)
          refine ⟨?_, htv, hrs⟩
          intro v hv hvrs
          by_cases hvt : v = t
          · subst hvt
            refine ⟨fun u hu => (hloop.2 u hu).1, ?_⟩
            intro hcyc
            rcases Relation.TransGen.head'_iff.mp hcyc with ⟨c, hedge, hrt⟩
            have hc := hloop.2 c hedge
            have := (hloop.1 c hc.1 hc.2).2
            exact this (Relation.TransGen.tail' hrt hedge)
          · have hvs : v ∉ t :: rs := by
              intro hc
              rcases List.mem_cons.mp hc with he | he
              · exact hvt he
              · exact hvrs he
            have := hloop.1 v hv hvs
            exact ⟨this.1, this.2⟩

theorem detectLoop_complete (g : Graph) : ∀ order vis,
    Inv g vis [] → detectLoop g order vis [] = .clean →
    ∀ v ∈ order, ¬ Relation.TransGen (Edge g) v v := by
  intro order
  induction order with
  | nil => intro vis _ _ v hv; simp at hv
  | cons x xs ih =>
    intro vis hinv h v hv
    rcases hs : isCyclicF g (dfsFuel g) x vis [] with ⟨out₁, vis₁, rs₁⟩
    cases out₁ with
    | fuelOut => simp [detectLoop, hs] at h
    | cyc w => simp [detectLoop, hs] at h
    | clear =>
      have hrs₁ : rs₁ = [] := (isCyclicF_mono_restore g (dfsFuel g) x vis []).2 _ _ _ hs rfl
      have hcomp := isCyclicF_complete g (dfsFuel g) x vis [] vis₁ rs₁ hinv hs
      rcases List.mem_cons.mp hv with he | he
      · subst he
        exact (hcomp.1 v hcomp.2.1 (by simp)).2
      · rw [show detectLoop g (x :: xs) vis [] = detectLoop g xs vis₁ [] by
          simp [detectLoop, hs, hrs₁]] at h
        exact ih vis₁ hcomp.1 h v he

theorem edge_mem_keys {g : Graph} {v u : Node} (h : Edge g v u) : v ∈ keysOf g := by
  unfold Edge succs at h
  rcases hl : lookupA g v with l | l
  · rw [hl] at h; simp at h
  · have := lookupA_mem hl
    exact List.mem_map.mpr ⟨(v, l), this, rfl⟩

/-- Number of distinct graph nodes not yet visited; the DFS recursion
depth is bounded by it. -/
def unvis (g : Graph) (vis : List Node) : Nat :=
  ((allNodes g).toFinset \ vis.toFinset).card

theorem unvis_mono (g : Graph) {vis vis' : List Node} (h : vis ⊆ vis') :
    unvis g vis' ≤ unvis g vis := by
  apply Finset.card_le_card
  apply Finset.sdiff_subset_sdiff (le_refl _)
  intro x hx
  exact List.mem_toFinset.mpr (h (List.mem_toFinset.mp hx))

theorem unvis_cons_lt (g : Graph) {t : Node} {vis : List Node}
    (ht : t ∈ (allNodes g).dedup) (hvis : t ∉ vis) :
    unvis g (t :: vis) < unvis g vis := by
  unfold unvis
  have htA : t ∈ (allNodes g).toFinset := List.mem_toFinset.mpr (List.mem_dedup.mp ht)
  have hmem : t ∈ (allNodes g).toFinset \ vis.toFinset := by
    rw [Finset.mem_sdiff]
    exact ⟨htA, fun hc => hvis (List.mem_toFinset.mp hc)⟩
  calc ((allNodes g).toFinset \ (t :: vis).toFinset).card
      = (((allNodes g).toFinset \ vis.toFinset).erase t).card := by
        rw [List.toFinset_cons, Finset.sdiff_insert]
    _ < ((allNodes g).toFinset \ vis.toFinset).card :=
        Finset.card_erase_lt_of_mem hmem

theorem mem_allNodes_of_mem {g : Graph} {k : Node} {ds : List Node}
    (h : (k, ds) ∈ g) : k ∈ allNodes g ∧ ∀ d ∈ ds, d ∈ allNodes g := by
  induction g with
  | nil => simp at h
  | cons p g ih =>
    have hexp : allNodes (p :: g) = p.1 :: (p.2 ++ allNodes g) := rfl
    rcases List.mem_cons.mp h with he | he
    · constructor
      · rw [hexp, ← he]
        exact List.mem_cons_self _ _
      · intro d hd
        rw [hexp, ← he]
        exact List.mem_cons_of_mem _ (List.mem_append_left _ hd)
    · obtain ⟨hk, hds⟩ := ih he
      constructor
      · rw [hexp]
        exact List.mem_cons_of_mem _ (List.mem_append_right _ hk)
      · intro d hd
        rw [hexp]
        exact List.mem_cons_of_mem _ (List.mem_append_right _ (hds d hd))

theorem succs_mem_allNodes {g : Graph} {v u : Node} (h : u ∈ succs g v) :
    u ∈ allNodes g := by
  unfold succs at h
  rcases hl : lookupA g v with l | l
  · rw [hl] at h; simp at h
  · rw [hl] at h
    exact (mem_allNodes_of_mem (lookupA_mem hl)).2 u h

theorem keys_mem_allNodes {g : Graph} {k : Node} (h : k ∈ keysOf g) :
    k ∈ allNodes g := by
  rcases List.mem_map.mp h with ⟨⟨k', ds⟩, hmem, heq⟩
  cases heq
  exact (mem_allNodes_of_mem hmem).1

theorem depsLoop_noFuelOut (g : Graph) {f : Nat}
    (step : Node → List Node → List Node → DfsRes × List Node × List Node)
    (hmono : ∀ d vis rs, vis ⊆ (step d vis rs).2.1)
    (hstep : ∀ d vis rs, d ∈ (allNodes g).dedup → unvis g vis < f →
      (step d vis rs).1 ≠ .fuelOut) :
    ∀ ds vis rs, (∀ d ∈ ds, d ∈ (allNodes g).dedup) → unvis g vis < f →
      (depsLoop step ds vis rs).1 ≠ .fuelOut := by
  intro ds
  induction ds with
  | nil => intro vis rs _ _; simp [depsLoop]
  | cons d ds ih =>
    intro vis rs hds hlt
    rcases hs : step d vis rs with ⟨out₁, vis₁, rs₁⟩
    cases out₁ with
    | fuelOut =>
      have := hstep d vis rs (hds d (List.mem_cons_self d ds)) hlt
      rw [hs] at this
      exact absurd rfl this
    | cyc w => simp [depsLoop, hs]
    | clear =>
      have hsub : vis ⊆ vis₁ := by
        have := hmono d vis rs
        rw [hs] at this
        exact this
      have hlt₁ : unvis g vis₁ < f := lt_of_le_of_lt (unvis_mono g hsub) hlt
      simpa [depsLoop, hs] using ih vis₁ rs₁ (fun x hx => hds x (List.mem_cons_of_mem d hx)) hlt₁

theorem isCyclicF_noFuelOut (g : Graph) : ∀ f t vis rs,
    t ∈ (allNodes g).dedup → unvis g vis < f →
    (isCyclicF g f t vis rs).1 ≠ .fuelOut := by
  intro f
  induction f with
  | zero => intro t vis rs _ hlt; omega
  | succ f ih =>
    intro t vis rs ht hlt
    by_cases hrs : t ∈ rs
    · simp [isCyclicF, hrs]
    · by_cases hvis : t ∈ vis
      · simp [isCyclicF, hrs, hvis]
      · have hlt₁ : unvis g (t :: vis) < f := by
          have := unvis_cons_lt g ht hvis
          omega
        have hds : ∀ d ∈ succs g t, d ∈ (allNodes g).dedup := by
          intro d hd
          exact List.mem_dedup.mpr (succs_mem_allNodes hd)
        have hloop := depsLoop_noFuelOut g (isCyclicF g f)
          (fun d v r => (isCyclicF_mono_restore g f d v r).1)
          (fun d v r hd hl => ih d v r hd hl)
          (succs g t) (t :: vis) (t :: rs) hds hlt₁
        rcases hdl : depsLoop (isCyclicF g f) (succs g t) (t :: vis) (t :: rs)
          with ⟨out₁, vis₁, rs₁⟩
        cases out₁ with
        | fuelOut => rw [hdl] at hloop; exact absurd rfl hloop
        | cyc w => simp [isCyclicF, hrs, hvis, hdl]
        | clear => simp [isCyclicF, hrs, hvis, hdl]

theorem unvis_lt_dfsFuel (g : Graph) (vis : List Node) : unvis g vis < dfsFuel g := by
  unfold unvis dfsFuel
  have h1 : ((allNodes g).toFinset \ vis.toFinset).card ≤ (allNodes g).toFinset.card :=
    Finset.card_le_card Finset.sdiff_subset
  have h2 : (allNodes g).toFinset.card = (allNodes g).dedup.length := List.card_toFinset _
  omega

theorem detectLoop_noFuelOut (g : Graph) : ∀ order vis rs,
    (∀ t ∈ order, t ∈ (allNodes g).dedup) →
    detectLoop g order vis rs ≠ .fuelOut := by
  intro order
  induction order with
  | nil => intro vis rs _; simp [detectLoop]
  | cons x xs ih =>
    intro vis rs hord
    rcases hs : isCyclicF g (dfsFuel g) x vis rs with ⟨out₁, vis₁, rs₁⟩
    cases out₁ with
    | fuelOut =>
      have := isCyclicF_noFuelOut g (dfsFuel g) x vis rs
        (hord x (List.mem_cons_self x xs)) (unvis_lt_dfsFuel g vis)
      rw [hs] at this
      exact absurd rfl this
    | cyc w => simp [detectLoop, hs]
    | clear =>
      simpa [detectLoop, hs] using
        ih vis₁ rs₁ (fun t ht => hord t (List.mem_cons_of_mem x ht))

theorem detect_found_hasCycle {g : Graph} {order : List Node} {t dep : Node}
    (h : detectCyclicDependencies g order = .found t dep) : hasCycle g :=
  detectLoop_sound g order [] t dep h

theorem detect_clean_acyclic {g : Graph} {order : List Node}
    (horder : ∀ k ∈ keysOf g, k ∈ order)
    (h : detectCyclicDependencies g order = .clean) : ¬ hasCycle g := by
  rintro ⟨v, hv⟩
  have hedge : ∃ c, Edge g v c := by
    rcases Relation.TransGen.head'_iff.mp hv with ⟨c, hc, _⟩
    exact ⟨c, hc⟩
  rcases hedge with ⟨c, hc⟩
  have hvk : v ∈ keysOf g := edge_mem_keys hc
  have hinv : Inv g [] [] := fun x hx => absurd hx (List.not_mem_nil x)
  exact detectLoop_complete g order [] hinv h v (horder v hvk) hv

theorem detect_ne_fuelOut {g : Graph} {order : List Node}
    (horder : ∀ t ∈ order, t ∈ keysOf g) :
    detectCyclicDependencies g order ≠ .fuelOut := by
  apply detectLoop_noFuelOut
  intro t ht
  exact List.mem_dedup.mpr (keys_mem_allNodes (horder t ht))

/-- Summary: under a traversal that visits exactly the map keys,
the detector reports a cycle iff the graph has one. -/
theorem detect_iff_hasCycle {g : Graph} {order : List Node}
    (hcov : ∀ k ∈ keysOf g, k ∈ order) (hkeys : ∀ t ∈ order, t ∈ keysOf g) :
    (∃ t dep, detectCyclicDependencies g order = .found t dep) ↔ hasCycle g := by
  constructor
  · rintro ⟨t, dep, h⟩
    exact detect_found_hasCycle h
  · intro hcyc
    rcases hd : detectCyclicDependencies g order with _ | ⟨t, dep⟩ | _
    · exact absurd hd (detect_ne_fuelOut hkeys)
    · exact ⟨t, dep, rfl⟩
    · exact absurd hcyc (detect_clean_acyclic hcov hd)

/-- A `reflect.Value`: either the context map value
(`reflect.ValueOf(con.contextParams)`) or an object produced by a provider
call, tagged with its produced type and a unique allocation id so that
instance identity is observable. -/
inductive Value where
  | ctxV : List (Nat × Nat) → Value
  | obj : RType → Nat → Value
deriving DecidableEq, Repr

/-- The data captured by the `getConstructor` closure: the provider's
in-parameter types (in order, including any `ContextParams` marker) and
its single out-parameter type. -/
structure CtorInfo where
  outType : RType
  argTypes : List RType
deriving DecidableEq, Repr

/-- Go errors produced by the container (each corresponds to one
`errors.New` / `fmt.Errorf` format of the source; the build report keeps
the list of types of its joined `type %s was not registered` lines). -/
inductive DIError where
  | alreadyRegistered : RType → DIError
  | cyclicDependency : Node → Node → DIError
  | notRegisteredReport : List RType → DIError
  | notRegistered : RType → DIError
  | unknownLifetime : RType → DIError
deriving DecidableEq, Repr

/-- Outcome of an operation: a returned value, a returned Go error, a Go
runtime panic (`crash`, e.g. calling a nil constructor), or exhaustion of
the model's recursion fuel (`spin`, i.e. the source would not terminate
at that fuel depth). -/
inductive Outcome (α : Type) where
  | ok : α → Outcome α
  | err : DIError → Outcome α
  | crash : Outcome α
  | spin : Outcome α
deriving DecidableEq, Repr

/-- The state shared by reference across one container family, together
with the bookkeeping of the model: `scopedHeap` is the heap of scoped
caches (each request-derived container references one slot), `fresh` the
allocation counter, and `calls` the trace of provider invocations
(recording each call's out-parameter type). -/
structure World where
  graph : Graph
  constructors : List (RType × Option CtorInfo)
  lifetimes : List (RType × Nat)
  singletonsCache : List (RType × Value)
  scopedHeap : List (List (RType × Value))
  fresh : Nat
  calls : List RType
deriving DecidableEq, Repr

/-- The per-container fields of the Go `Container` struct: the reference
to its scoped cache (`none` models a nil `scopedCache` map), its context
map and its `scope` field (a Go int whose zero value is 0). -/
structure Container where
  scopedRef : Option Nat
  contextParams : List (Nat × Nat)
  scope : Nat
deriving DecidableEq, Repr

/-- Lifetime constant `Singleton`. -/
def Singleton : Nat := 1
/-- Lifetime constant `Scoped`. -/
def Scoped : Nat := 2
/-- Lifetime constant `Transient`. -/
def Transient : Nat := 3

/-- Scope constant `main`. -/
def mainScope : Nat := 1
/-- Scope constant `request`. -/
def requestScope : Nat := 2

/-- `NewContainer()`: empty family state. -/
def newWorld : World :=
  { graph := newDependencyGraph, constructors := [], lifetimes := [],
    singletonsCache := [], scopedHeap := [], fresh := 0, calls := [] }

/-- The container `NewContainer()` returns: nil scoped cache, empty
context, scope `main`. -/
def newContainer : Container :=
  { scopedRef := none, contextParams := [], scope := mainScope }

/-- The scoped cache a container reads: a nil map (absent reference or
dangling slot) reads as empty. -/
def scopedCacheOf (w : World) (c : Container) : List (RType × Value) :=
  match c.scopedRef with
  | none => []
  | some i => (w.scopedHeap.get? i).getD []

/-- Write-through of `c.scopedCache[t] = v` for a container holding heap
slot `i`. -/
def writeScoped (w : World) (i : Nat) (t : RType) (v : Value) : World :=
  { w with scopedHeap := w.scopedHeap.set i (updA ((w.scopedHeap.get? i).getD []) t v) }

/-- `Register(provider, lifetime)` for a provider of signature
`argTypes → outType`.  The Go reflection checks (`NotAFunction`,
`OnlyOneOutParam`) are signature-level and outside the model; everything
after them is mirrored: double-registration check against the graph keys,
the `outType → nil` placeholder edge, one edge and one nil-constructor
placeholder per non-context argument, then the lifetime and constructor
entries for `outType`. -/
def register (w : World) (outType : RType) (argTypes : List RType) (lifetime : Nat) :
    Outcome Unit × World :=
  match lookupA w.graph (some outType) with
  | some _ => (.err (.alreadyRegistered outType), w)
  | none =>
    let g₁ := addDependency w.graph (some outType) none
    let step := fun (acc : Graph × List (RType × Option CtorInfo)) (a : RType) =>
      if a = RType.ctx then acc
      else (addDependency acc.1 (some outType) (some a),
            if lookupA acc.2 a = none then acc.2 ++ [(a, none)] else acc.2)
    let gc := argTypes.foldl step (g₁, w.constructors)
    (.ok (), { w with graph := gc.1,
                      constructors := updA gc.2 outType (some ⟨outType, argTypes⟩),
                      lifetimes := updA w.lifetimes outType lifetime })

/-- One argument resolution of the `getConstructor` closure body:
context marker, then `singletonsCache`, then `scopedCache` (both read
unconditionally), then the recursive constructor call; a nil or absent
inner constructor is a nil function call, i.e. a panic. -/
def resolveArg (step : World → CtorInfo → Outcome Value × World)
    (w : World) (c : Container) (a : RType) : Outcome Value × World :=
  if a = RType.ctx then (.ok (Value.ctxV c.contextParams), w)
  else
    match lookupA w.singletonsCache a with
    | some v => (.ok v, w)
    | none =>
      match lookupA (scopedCacheOf w c) a with
      | some v => (.ok v, w)
      | none =>
        match lookupA w.constructors a with
        | some (some info) => step w info
        | some none => (.crash, w)
        | none => (.crash, w)

/-- The argument loop of the `getConstructor` closure. -/
def argsLoop (step : World → CtorInfo → Outcome Value × World) (c : Container) :
    World → List RType → Outcome (List Value) × World
  | w, [] => (.ok [], w)
  | w, a :: rest =>
    match resolveArg step w c a with
    | (.ok v, w₁) =>
      match argsLoop step c w₁ rest with
      | (.ok vs, w₂) => (.ok (v :: vs), w₂)
      | (.err e, w₂) => (.err e, w₂)
      | (.crash, w₂) => (.crash, w₂)
      | (.spin, w₂) => (.spin, w₂)
    | (.err e, w₁) => (.err e, w₁)
    | (.crash, w₁) => (.crash, w₁)
    | (.spin, w₁) => (.spin, w₁)

/-- The closure `getConstructor` returns: resolve every argument, then
call the provider, which allocates a fresh instance of the out type and
records the call in the trace.  Fuel bounds the nesting depth of inner
constructor calls. -/
def runCtor : Nat → World → Container → CtorInfo → Outcome Value × World
  | 0, w, _, _ => (.spin, w)
  | f + 1, w, c, info =>
    match argsLoop (fun w' i => runCtor f w' c i) c w info.argTypes with
    | (.ok _, w₁) =>
      (.ok (Value.obj info.outType w₁.fresh),
       { w₁ with fresh := w₁.fresh + 1, calls := w₁.calls ++ [info.outType] })
    | (.err e, w₁) => (.err e, w₁)
    | (.crash, w₁) => (.crash, w₁)
    | (.spin, w₁) => (.spin, w₁)

/-- The shared default arm of `getValue`'s switch: construct, and cache
into `scopedCache` when the container is in request scope (a request
container without a cache slot would be a nil-map write, a panic). -/
def construct (fuel : Nat) (w : World) (c : Container) (argType : RType)
    (ctorOpt : Option CtorInfo) : Outcome Value × World :=
  match ctorOpt with
  | none => (.crash, w)
  | some info =>
    match runCtor fuel w c info with
    | (.ok v, w₁) =>
      if c.scope = requestScope then
        match c.scopedRef with
        | some i => (.ok v, writeScoped w₁ i argType v)
        | none => (.crash, w₁)
      else (.ok v, w₁)
    | (.err e, w₁) => (.err e, w₁)
    | (.crash, w₁) => (.crash, w₁)
    | (.spin, w₁) => (.spin, w₁)

/-- The `case Scoped` arm (also reached from `case Singleton` by
fallthrough): read the scoped cache only in request scope, else fall
through to construction. -/
def scopedStage (fuel : Nat) (w : World) (c : Container) (argType : RType)
    (ctorOpt : Option CtorInfo) : Outcome Value × World :=
  if c.scope = requestScope then
    match lookupA (scopedCacheOf w c) argType with
    | some v => (.ok v, w)
    | none => construct fuel w c argType ctorOpt
  else construct fuel w c argType ctorOpt

/-- The lifetime switch of `getValue`, with Go fallthrough linearized:
Singleton reads `singletonsCache` then falls through to the Scoped arm;
Scoped reads the request cache; every other lifetime value takes the
default arm. -/
def getValueDispatch (fuel : Nat) (w : World) (c : Container) (argType : RType)
    (ctorOpt : Option CtorInfo) (lt : Nat) : Outcome Value × World :=
  if lt = Singleton then
    match lookupA w.singletonsCache argType with
    | some v => (.ok v, w)
    | none => scopedStage fuel w c argType ctorOpt
  else if lt = Scoped then scopedStage fuel w c argType ctorOpt
  else construct fuel w c argType ctorOpt

/-- `getValue`: context marker, registration check (the key may map to a
nil placeholder and still pass), lifetime check, then the lifetime
switch. -/
def getValue (fuel : Nat) (w : World) (c : Container) (argType : RType) :
    Outcome Value × World :=
  if argType = RType.ctx then (.ok (Value.ctxV c.contextParams), w)
  else
    match lookupA w.constructors argType with
    | none => (.err (.notRegistered argType), w)
    | some ctorOpt =>
      match lookupA w.lifetimes argType with
      | none => (.err (.unknownLifetime argType), w)
      | some lt => getValueDispatch fuel w c argType ctorOpt lt

/-- `Invoke(invoker)` for an invoker with the given parameter types:
resolve each positionally through `getValue`, stopping at the first
error; on success the invoker is called with the resolved values, which
the model returns. -/
def invoke (fuel : Nat) (c : Container) : World → List RType → Outcome (List Value) × World
  | w, [] => (.ok [], w)
  | w, p :: ps =>
    match getValue fuel w c p with
    | (.ok v, w₁) =>
      match invoke fuel c w₁ ps with
      | (.ok vs, w₂) => (.ok (v :: vs), w₂)
      | (.err e, w₂) => (.err e, w₂)
      | (.crash, w₂) => (.crash, w₂)
      | (.spin, w₂) => (.spin, w₂)
    | (.err e, w₁) => (.err e, w₁)
    | (.crash, w₁) => (.crash, w₁)
    | (.spin, w₁) => (.spin, w₁)

/-- The nil-constructor check of one `Build` loop turn: append a
missing-registration line when the entry is a placeholder. -/
def collectErr (w : World) (t : RType) (errs : List RType) : List RType :=
  match lookupA w.constructors t with
  | some none => errs ++ [t]
  | _ => errs

/-- The `for t, innerConstructor := range c.constructors` loop of `Build`
over an explicit key order: collect a missing-registration line for every
nil constructor, and eagerly build and cache every Singleton-lifetime
entry. -/
def buildLoop (fuel : Nat) (c : Container) :
    World → List RType → List RType → Outcome (List RType) × World
  | w, [], errs => (.ok errs, w)
  | w, t :: ts, errs =>
    match lookupA w.lifetimes t with
    | some lt =>
      if lt = Singleton then
        match lookupA w.constructors t with
        | some (some info) =>
          match runCtor fuel w c info with
          | (.ok v, w₁) =>
            buildLoop fuel c { w₁ with singletonsCache := updA w₁.singletonsCache t v } ts
              (collectErr w t errs)
          | (.err e, w₁) => (.err e, w₁)
          | (.crash, w₁) => (.crash, w₁)
          | (.spin, w₁) => (.spin, w₁)
        | _ => (.crash, w)
      else buildLoop fuel c w ts (collectErr w t errs)
    | none => buildLoop fuel c w ts (collectErr w t errs)

/-- `Build()`: cycle detection first (fail fast), then the registry scan;
a non-empty error list is returned as one joined report. -/
def build (fuel : Nat) (w : World) (c : Container) (gOrder : List Node) (cOrder : List RType) :
    Outcome Unit × World :=
  match detectCyclicDependencies w.graph gOrder with
  | .found t dep => (.err (.cyclicDependency t dep), w)
  | .fuelOut => (.spin, w)
  | .clean =>
    match buildLoop fuel c w cOrder [] with
    | (.ok errs, w') =>
      if errs = [] then (.ok (), w') else (.err (.notRegisteredReport errs), w')
    | (.err e, w') => (.err e, w')
    | (.crash, w') => (.crash, w')
    | (.spin, w') => (.spin, w')

/-- `Scoped()`: allocate a fresh empty scoped cache, share everything
else, set scope `request`. -/
def scopedOp (w : World) (c : Container) : World × Container :=
  ({ w with scopedHeap := w.scopedHeap ++ [[]] },
   { scopedRef := some w.scopedHeap.length, contextParams := c.contextParams,
     scope := requestScope })

/-- `WithContext(key, value)`: copy the context map, add the entry, share
the scoped-cache reference; the composite literal omits the `scope`
field, so the new container carries the zero scope value. -/
def withContextOp (c : Container) (k v : Nat) : Container :=
  { scopedRef := c.scopedRef, contextParams := updA c.contextParams k v, scope := 0 }

/-- `ContextParams.GetValue(key)` (a missing key reads as Go nil). -/
def getValueCtx (c : Container) (k : Nat) : Option Nat := lookupA c.contextParams k

/-- What a provider call can do to the world: everything shared is
untouched except the allocation counter (monotone) and the call trace
(append-only). -/
def CtorEvolve (w w' : World) : Prop :=
  w'.graph = w.graph ∧ w'.constructors = w.constructors ∧ w'.lifetimes = w.lifetimes ∧
  w'.singletonsCache = w.singletonsCache ∧ w'.scopedHeap = w.scopedHeap ∧
  w.fresh ≤ w'.fresh ∧ ∃ δ, w'.calls = w.calls ++ δ

theorem ctorEvolve_refl (w : World) : CtorEvolve w w :=
  ⟨rfl, rfl, rfl, rfl, rfl, le_refl _, [], by simp⟩

theorem ctorEvolve_trans {w₁ w₂ w₃ : World} (h₁ : CtorEvolve w₁ w₂) (h₂ : CtorEvolve w₂ w₃) :
    CtorEvolve w₁ w₃ := by
  obtain ⟨g₁, c₁, l₁, s₁, h₁', f₁, δ₁, hd₁⟩ := h₁
  obtain ⟨g₂, c₂, l₂, s₂, h₂', f₂, δ₂, hd₂⟩ := h₂
  exact ⟨g₂.trans g₁, c₂.trans c₁, l₂.trans l₁, s₂.trans s₁, h₂'.trans h₁',
    f₁.trans f₂, δ₁ ++ δ₂, by rw [hd₂, hd₁, List.append_assoc]⟩

theorem resolveArg_evolve
    (step : World → CtorInfo → Outcome Value × World)
    (hstep : ∀ w i out w', step w i = (out, w') → CtorEvolve w w') :
    ∀ w c a out w', resolveArg step w c a = (out, w') → CtorEvolve w w' := by
  intro w c a out w' h
  unfold resolveArg at h
  by_cases hc : a = RType.ctx
  · rw [if_pos hc] at h
    injection h with h1 h2
    exact h2 ▸ ctorEvolve_refl w
  · rw [if_neg hc] at h
    rcases hs : lookupA w.singletonsCache a with _ | v
    · rw [hs] at h
      rcases hsc : lookupA (scopedCacheOf w c) a with _ | v
      · rw [hsc] at h
        rcases hco : lookupA w.constructors a with _ | o
        · rw [hco] at h
          injection h with h1 h2
          exact h2 ▸ ctorEvolve_refl w
        · rw [hco] at h
          rcases o with _ | info
          · injection h with h1 h2
            exact h2 ▸ ctorEvolve_refl w
          · exact hstep w info out w' h
      · rw [hsc] at h
        injection h with h1 h2
        exact h2 ▸ ctorEvolve_refl w
    · rw [hs] at h
      injection h with h1 h2
      exact h2 ▸ ctorEvolve_refl w

theorem argsLoop_evolve
    (step : World → CtorInfo → Outcome Value × World) (c : Container)
    (hstep : ∀ w i out w', step w i = (out, w') → CtorEvolve w w') :
    ∀ l w out w', argsLoop step c w l = (out, w') → CtorEvolve w w' := by
  intro l
  induction l with
  | nil =>
    intro w out w' h
    unfold argsLoop at h
    injection h with h1 h2
    exact h2 ▸ ctorEvolve_refl w
  | cons a rest ih =>
    intro w out w' h
    unfold argsLoop at h
    rcases hr : resolveArg step w c a with ⟨out₁, w₁⟩
    have hev₁ : CtorEvolve w w₁ := resolveArg_evolve step hstep w c a out₁ w₁ hr
    rw [hr] at h
    cases out₁ with
    | ok v =>
      rcases hl : argsLoop step c w₁ rest with ⟨out₂, w₂⟩
      have hev₂ : CtorEvolve w₁ w₂ := ih w₁ out₂ w₂ hl
      dsimp only at h
      rw [hl] at h
      cases out₂ with
      | ok vs => injection h with h1 h2; exact h2 ▸ ctorEvolve_trans hev₁ hev₂
      | err e => injection h with h1 h2; exact h2 ▸ ctorEvolve_trans hev₁ hev₂
      | crash => injection h with h1 h2; exact h2 ▸ ctorEvolve_trans hev₁ hev₂
      | spin => injection h with h1 h2; exact h2 ▸ ctorEvolve_trans hev₁ hev₂
    | err e => injection h with h1 h2; exact h2 ▸ hev₁
    | crash => injection h with h1 h2; exact h2 ▸ hev₁
    | spin => injection h with h1 h2; exact h2 ▸ hev₁

theorem runCtor_evolve : ∀ f w c info out w',
    runCtor f w c info = (out, w') → CtorEvolve w w' := by
  intro f
  induction f with
  | zero =>
    intro w c info out w' h
    unfold runCtor at h
    injection h with h1 h2
    exact h2 ▸ ctorEvolve_refl w
  | succ f ih =>
    intro w c info out w' h
    unfold runCtor at h
    rcases hl : argsLoop (fun w' i => runCtor f w' c i) c w info.argTypes with ⟨out₁, w₁⟩
    have hev₁ : CtorEvolve w w₁ :=
      argsLoop_evolve _ c (fun w i out w' hh => ih w c i out w' hh) info.argTypes w out₁ w₁ hl
    rw [hl] at h
    cases out₁ with
    | ok vs =>
      injection h with h1 h2
      refine h2 ▸ ctorEvolve_trans hev₁ ?_
      exact ⟨rfl, rfl, rfl, rfl, rfl, by simp, [info.outType], rfl⟩
    | err e => injection h with h1 h2; exact h2 ▸ hev₁
    | crash => injection h with h1 h2; exact h2 ▸ hev₁
    | spin => injection h with h1 h2; exact h2 ▸ hev₁

/-- On success a provider call returns a freshly allocated object of the
constructor's out type. -/
theorem runCtor_ok_shape : ∀ f w c info v w',
    runCtor f w c info = (.ok v, w') →
    ∃ id, v = Value.obj info.outType id ∧ w.fresh ≤ id ∧ id < w'.fresh ∧
      ∃ δ, w'.calls = w.calls ++ δ ++ [info.outType] := by
  intro f w c info v w' h
  cases f with
  | zero => unfold runCtor at h; exact absurd h (by simp)
  | succ f =>
    unfold runCtor at h
    rcases hl : argsLoop (fun w' i => runCtor f w' c i) c w info.argTypes with ⟨out₁, w₁⟩
    have hev₁ : CtorEvolve w w₁ :=
      argsLoop_evolve _ c (fun w i out w' hh => runCtor_evolve f w c i out w' hh)
        info.argTypes w out₁ w₁ hl
    rw [hl] at h
    cases out₁ with
    | ok vs =>
      injection h with h1 h2
      injection h1 with h1
      refine ⟨w₁.fresh, h1.symm, ?_, ?_, ?_⟩
      · exact hev₁.2.2.2.2.2.1
      · rw [← h2]; simp
      · obtain ⟨δ, hδ⟩ := hev₁.2.2.2.2.2.2
        exact ⟨δ, by rw [← h2]; simp [hδ]⟩
    | err e => exact absurd h (by simp)
    | crash => exact absurd h (by simp)
    | spin => exact absurd h (by simp)

/-- Registration invariant maintained by `Register`: every stored
constructor produces its own key, and every non-context argument has a
graph edge and a (possibly placeholder) registry entry. -/
def WfPair (g : Graph) (ctors : List (RType × Option CtorInfo)) : Prop :=
  ∀ p ∈ ctors, ∀ info, p.2 = some info → info.outType = p.1 ∧
    ∀ a ∈ info.argTypes, a ≠ RType.ctx →
      Edge g (some p.1) (some a) ∧ (lookupA ctors a).isSome

theorem wfPair_lookup {g : Graph} {ctors : List (RType × Option CtorInfo)}
    {x : RType} {info : CtorInfo} (hwf : WfPair g ctors)
    (h : lookupA ctors x = some (some info)) :
    info.outType = x ∧ ∀ a ∈ info.argTypes, a ≠ RType.ctx →
      Edge g (some x) (some a) ∧ (lookupA ctors a).isSome :=
  hwf (x, some info) (lookupA_mem h) info rfl

/-- All edge chains out of `x` are shorter than `f`. -/
def NoLongChain (g : Graph) (x : Node) (f : Nat) : Prop :=
  ∀ l, List.Chain (Edge g) x l → l.length < f

theorem noLongChain_step {g : Graph} {x a : Node} {f : Nat}
    (h : NoLongChain g x (f + 1)) (he : Edge g x a) : NoLongChain g a f := by
  intro l hl
  have := h (a :: l) (List.Chain.cons he hl)
  simp at this
  omega

theorem chain_reach_mem {g : Graph} : ∀ (l : List Node) (x : Node),
    List.Chain (Edge g) x l → ∀ y ∈ l, Relation.ReflTransGen (Edge g) x y := by
  intro l
  induction l with
  | nil => intro x _ y hy; simp at hy
  | cons a l ih =>
    intro x hch y hy
    rcases List.chain_cons.mp hch with ⟨he, hch'⟩
    rcases List.mem_cons.mp hy with hya | hyl
    · exact hya ▸ Relation.ReflTransGen.single he
    · exact Relation.ReflTransGen.head he (ih a hch' y hyl)

theorem chain_nodup {g : Graph} (hacyc : ¬ hasCycle g) : ∀ (l : List Node) (x : Node),
    List.Chain (Edge g) x l → (x :: l).Nodup := by
  intro l
  induction l with
  | nil => intro x _; simp
  | cons a l ih =>
    intro x hch
    rcases List.chain_cons.mp hch with ⟨he, hch'⟩
    have hnd : (a :: l).Nodup := ih a hch'
    rw [List.nodup_cons]
    refine ⟨?_, hnd⟩
    intro hx
    apply hacyc
    refine ⟨x, Relation.TransGen.head'_iff.mpr ⟨a, he, ?_⟩⟩
    rcases List.mem_cons.mp hx with hxa | hxl
    · exact hxa ▸ Relation.ReflTransGen.refl
    · exact chain_reach_mem l a hch' x hxl

theorem chain_sources_keys {g : Graph} : ∀ (l : List Node) (x : Node),
    List.Chain (Edge g) x l → ∀ s ∈ (x :: l).dropLast, s ∈ keysOf g := by
  intro l
  induction l with
  | nil => intro x _ s hs; simp at hs
  | cons a l ih =>
    intro x hch s hs
    rcases List.chain_cons.mp hch with ⟨he, hch'⟩
    rw [List.dropLast_cons₂] at hs
    rcases List.mem_cons.mp hs with hsx | hsl
    · exact hsx ▸ edge_mem_keys he
    · exact ih a hch' s hsl

theorem noLongChain_of_acyclic {g : Graph} (hacyc : ¬ hasCycle g) (x : Node) :
    NoLongChain g x ((keysOf g).dedup.length + 1) := by
  intro l hl
  have hnd : ((x :: l).dropLast).Nodup :=
    (chain_nodup hacyc l x hl).sublist (List.dropLast_sublist _)
  have hsub : (x :: l).dropLast ⊆ (keysOf g).dedup := by
    intro s hs
    exact List.mem_dedup.mpr (chain_sources_keys l x hl s hs)
  have hlen : ((x :: l).dropLast).length ≤ (keysOf g).dedup.length :=
    (hnd.subperm hsub).length_le
  rw [List.length_dropLast, List.length_cons] at hlen
  omega

/-- Every type reachable from `x` in the dependency graph has a real
(non-placeholder) constructor. -/
def RealReach (g : Graph) (ctors : List (RType × Option CtorInfo)) (x : RType) : Prop :=
  ∀ y : RType, Relation.ReflTransGen (Edge g) (some x) (some y) →
    lookupA ctors y ≠ some none

/-- Under the registration invariant, with every type reachable from `x`
really registered and fuel beyond all chain lengths, the constructor of
`x` runs to completion. -/
theorem runCtor_ok : ∀ (f : Nat) (w : World) (c : Container) (x : RType) (info : CtorInfo),
    WfPair w.graph w.constructors →
    lookupA w.constructors x = some (some info) →
    RealReach w.graph w.constructors x →
    NoLongChain w.graph (some x) f →
    ∃ v w', runCtor f w c info = (.ok v, w') := by
  intro f
  induction f with
  | zero =>
    intro w c x info _ _ _ hchain
    have := hchain [] List.Chain.nil
    simp at this
  | succ f ih =>
    intro w c x info hwf hlook hreach hchain
    have hargs : ∀ (args : List RType),
        (∀ a ∈ args, a ≠ RType.ctx →
          Edge w.graph (some x) (some a) ∧ (lookupA w.constructors a).isSome) →
        ∀ w₂, w₂.graph = w.graph → w₂.constructors = w.constructors →
        ∃ vs w₃, argsLoop (fun w' i => runCtor f w' c i) c w₂ args = (.ok vs, w₃) ∧
          w₃.graph = w.graph ∧ w₃.constructors = w.constructors := by
      intro args
      induction args with
      | nil =>
        intro _ w₂ hg hc
        exact ⟨[], w₂, rfl, hg, hc⟩
      | cons a rest ihargs =>
        intro hprop w₂ hg hc
        have hone : ∃ v w₂', resolveArg (fun w' i => runCtor f w' c i) w₂ c a = (.ok v, w₂') ∧
            w₂'.graph = w.graph ∧ w₂'.constructors = w.constructors := by
          by_cases hctx : a = RType.ctx
          · exact ⟨Value.ctxV c.contextParams, w₂, by simp [resolveArg, hctx], hg, hc⟩
          · rcases hs : lookupA w₂.singletonsCache a with _ | v
            · rcases hsc : lookupA (scopedCacheOf w₂ c) a with _ | v
              · have hp := hprop a (List.mem_cons_self a rest) hctx
                rcases hl : lookupA w.constructors a with _ | o
                · rw [hl] at hp; simp at hp
                · rcases o with _ | info₂
                  · exact absurd hl (hreach a (Relation.ReflTransGen.single hp.1))
                  · have hwf₂ : WfPair w₂.graph w₂.constructors := by rw [hg, hc]; exact hwf
                    have hlook₂ : lookupA w₂.constructors a = some (some info₂) := by
                      rw [hc]; exact hl
                    have hreach₂ : RealReach w₂.graph w₂.constructors a := by
                      rw [hg, hc]
                      intro y hy
                      exact hreach y (Relation.ReflTransGen.head hp.1 hy)
                    have hchain₂ : NoLongChain w₂.graph (some a) f := by
                      rw [hg]
                      exact noLongChain_step hchain hp.1
                    obtain ⟨v, w₃, hrun⟩ := ih w₂ c a info₂ hwf₂ hlook₂ hreach₂ hchain₂
                    have hev := runCtor_evolve f w₂ c info₂ _ _ hrun
                    refine ⟨v, w₃, ?_, by rw [hev.1, hg], by rw [hev.2.1, hc]⟩
                    simp [resolveArg, hctx, hs, hsc, hlook₂, hrun]
              · exact ⟨v, w₂, by simp [resolveArg, hctx, hs, hsc], hg, hc⟩
            · exact ⟨v, w₂, by simp [resolveArg, hctx, hs], hg, hc⟩
        obtain ⟨v, w₂', hres, hg', hc'⟩ := hone
        obtain ⟨vs, w₃, hloop, hg₃, hc₃⟩ :=
          ihargs (fun a' ha' => hprop a' (List.mem_cons_of_mem a ha')) w₂' hg' hc'
        refine ⟨v :: vs, w₃, ?_, hg₃, hc₃⟩
        unfold argsLoop
        rw [hres]
        dsimp only
        rw [hloop]
    have hp := wfPair_lookup hwf hlook
    obtain ⟨vs, w₃, hloop, _, _⟩ := hargs info.argTypes hp.2 w rfl rfl
    refine ⟨Value.obj info.outType w₃.fresh,
      { w₃ with fresh := w₃.fresh + 1, calls := w₃.calls ++ [info.outType] }, ?_⟩
    unfold runCtor
    rw [hloop]

theorem argsLoop_reach_of (f : Nat)
    (hR : ∀ (w : World) (c : Container) (x : RType) (info : CtorInfo) (v : Value) (w' : World),
      WfPair w.graph w.constructors → lookupA w.constructors x = some (some info) →
      runCtor f w c info = (.ok v, w') →
      ∃ δ, w'.calls = w.calls ++ δ ∧
        ∀ t ∈ δ, Relation.ReflTransGen (Edge w.graph) (some x) (some t)) :
    ∀ (w : World) (c : Container) (args : List RType) (vs : List Value) (w' : World),
      WfPair w.graph w.constructors →
      argsLoop (fun w₀ i => runCtor f w₀ c i) c w args = (.ok vs, w') →
      ∃ δ, w'.calls = w.calls ++ δ ∧
        ∀ t ∈ δ, ∃ a ∈ args, a ≠ RType.ctx ∧
          Relation.ReflTransGen (Edge w.graph) (some a) (some t) := by
  intro w c args
  induction args generalizing w with
  | nil =>
    intro vs w' _ h
    unfold argsLoop at h
    injection h with h1 h2
    exact ⟨[], by rw [← h2]; simp, by simp⟩
  | cons a rest ih =>
    intro vs w' hwf h
    unfold argsLoop at h
    rcases hr : resolveArg (fun w₀ i => runCtor f w₀ c i) w c a with ⟨out₁, w₁⟩
    rw [hr] at h
    cases out₁ with
    | err e => exact absurd h (by simp)
    | crash => exact absurd h (by simp)
    | spin => exact absurd h (by simp)
    | ok v =>
      dsimp only at h
      rcases hl : argsLoop (fun w₀ i => runCtor f w₀ c i) c w₁ rest with ⟨out₂, w₂⟩
      rw [hl] at h
      cases out₂ with
      | err e => exact absurd h (by simp)
      | crash => exact absurd h (by simp)
      | spin => exact absurd h (by simp)
      | ok vs₂ =>
        injection h with h1 h2
        subst h2
        have hone : ∃ δ₁, w₁.calls = w.calls ++ δ₁ ∧
            (∀ t ∈ δ₁, a ≠ RType.ctx ∧
              Relation.ReflTransGen (Edge w.graph) (some a) (some t)) ∧
            w₁.graph = w.graph ∧ w₁.constructors = w.constructors ∧
            w₁.singletonsCache = w.singletonsCache := by
          unfold resolveArg at hr
          by_cases hctx : a = RType.ctx
          · rw [if_pos hctx] at hr
            injection hr with hr1 hr2
            exact ⟨[], by rw [← hr2]; simp, by simp, by rw [← hr2], by rw [← hr2], by rw [← hr2]⟩
          · rw [if_neg hctx] at hr
            rcases hs : lookupA w.singletonsCache a with _ | v₀
            · rw [hs] at hr
              rcases hsc : lookupA (scopedCacheOf w c) a with _ | v₀
              · rw [hsc] at hr
                rcases hlo : lookupA w.constructors a with _ | o
                · rw [hlo] at hr
                  exact absurd hr (by simp)
                · rw [hlo] at hr
                  rcases o with _ | info₂
                  · exact absurd hr (by simp)
                  · have hsub := hR w c a info₂ v w₁ hwf hlo hr
                    obtain ⟨δ₁, hδ₁, hreach₁⟩ := hsub
                    have hev := runCtor_evolve f w c info₂ _ _ hr
                    exact ⟨δ₁, hδ₁, fun t ht => ⟨hctx, hreach₁ t ht⟩,
                      hev.1, hev.2.1, hev.2.2.2.1⟩
              · rw [hsc] at hr
                injection hr with hr1 hr2
                exact ⟨[], by rw [← hr2]; simp, by simp, by rw [← hr2], by rw [← hr2],
                  by rw [← hr2]⟩
            · rw [hs] at hr
              injection hr with hr1 hr2
              exact ⟨[], by rw [← hr2]; simp, by simp, by rw [← hr2], by rw [← hr2],
                by rw [← hr2]⟩
        obtain ⟨δ₁, hδ₁, hreach₁, hg₁, hc₁, _⟩ := hone
        have hwf₁ : WfPair w₁.graph w₁.constructors := by rw [hg₁, hc₁]; exact hwf
        obtain ⟨δ₂, hδ₂, hreach₂⟩ := ih w₁ vs₂ w₂ hwf₁ hl
        refine ⟨δ₁ ++ δ₂, by rw [hδ₂, hδ₁, List.append_assoc], ?_⟩
        intro t ht
        rcases List.mem_append.mp ht with h₁ | h₂
        · exact ⟨a, List.mem_cons_self a rest, hreach₁ t h₁⟩
        · obtain ⟨a', ha', hne, hre⟩ := hreach₂ t h₂
          rw [hg₁] at hre
          exact ⟨a', List.mem_cons_of_mem a ha', hne, hre⟩

theorem runCtor_calls_reach : ∀ (f : Nat) (w : World) (c : Container) (x : RType)
    (info : CtorInfo) (v : Value) (w' : World),
    WfPair w.graph w.constructors → lookupA w.constructors x = some (some info) →
    runCtor f w c info = (.ok v, w') →
    ∃ δ, w'.calls = w.calls ++ δ ∧
      ∀ t ∈ δ, Relation.ReflTransGen (Edge w.graph) (some x) (some t) := by
  intro f
  induction f with
  | zero =>
    intro w c x info v w' _ _ h
    unfold runCtor at h
    exact absurd h (by simp)
  | succ f ih =>
    intro w c x info v w' hwf hlook h
    unfold runCtor at h
    rcases hl : argsLoop (fun w₀ i => runCtor f w₀ c i) c w info.argTypes with ⟨out₁, w₁⟩
    rw [hl] at h
    cases out₁ with
    | err e => exact absurd h (by simp)
    | crash => exact absurd h (by simp)
    | spin => exact absurd h (by simp)
    | ok vs =>
      injection h with h1 h2
      have hp := wfPair_lookup hwf hlook
      obtain ⟨δ, hδ, hreach⟩ := argsLoop_reach_of f ih w c info.argTypes vs w₁ hwf hl
      refine ⟨δ ++ [info.outType], by rw [← h2]; simp [hδ], ?_⟩
      intro t ht
      rcases List.mem_append.mp ht with h₁ | h₂
      · obtain ⟨a, ha, hne, hre⟩ := hreach t h₁
        exact Relation.ReflTransGen.head (hp.2 a ha hne).1 hre
      · have : t = info.outType := by simpa using h₂
        rw [this, hp.1]

theorem argsLoop_count_of (f : Nat) (T : RType)
    (hR : ∀ (w : World) (c : Container) (x : RType) (info : CtorInfo) (v : Value) (w' : World),
      WfPair w.graph w.constructors → lookupA w.constructors x = some (some info) →
      (lookupA w.singletonsCache T).isSome →
      runCtor f w c info = (.ok v, w') →
      w'.calls.count T = w.calls.count T + (if x = T then 1 else 0)) :
    ∀ (w : World) (c : Container) (args : List RType) (vs : List Value) (w' : World),
      WfPair w.graph w.constructors →
      (lookupA w.singletonsCache T).isSome →
      argsLoop (fun w₀ i => runCtor f w₀ c i) c w args = (.ok vs, w') →
      w'.calls.count T = w.calls.count T := by
  intro w c args
  induction args generalizing w with
  | nil =>
    intro vs w' _ _ h
    unfold argsLoop at h
    injection h with h1 h2
    rw [← h2]
  | cons a rest ih =>
    intro vs w' hwf hcache h
    unfold argsLoop at h
    rcases hr : resolveArg (fun w₀ i => runCtor f w₀ c i) w c a with ⟨out₁, w₁⟩
    rw [hr] at h
    cases out₁ with
    | err e => exact absurd h (by simp)
    | crash => exact absurd h (by simp)
    | spin => exact absurd h (by simp)
    | ok v =>
      dsimp only at h
      rcases hl : argsLoop (fun w₀ i => runCtor f w₀ c i) c w₁ rest with ⟨out₂, w₂⟩
      rw [hl] at h
      cases out₂ with
      | err e => exact absurd h (by simp)
      | crash => exact absurd h (by simp)
      | spin => exact absurd h (by simp)
      | ok vs₂ =>
        injection h with h1 h2
        subst h2
        have hone : w₁.calls.count T = w.calls.count T ∧
            w₁.graph = w.graph ∧ w₁.constructors = w.constructors ∧
            w₁.singletonsCache = w.singletonsCache := by
          unfold resolveArg at hr
          by_cases hctx : a = RType.ctx
          · rw [if_pos hctx] at hr
            injection hr with hr1 hr2
            exact ⟨by rw [← hr2], by rw [← hr2], by rw [← hr2], by rw [← hr2]⟩
          · rw [if_neg hctx] at hr
            rcases hs : lookupA w.singletonsCache a with _ | v₀
            · rcases hsc : lookupA (scopedCacheOf w c) a with _ | v₀
              · rw [hs, hsc] at hr
                rcases hlo : lookupA w.constructors a with _ | o
                · rw [hlo] at hr
                  exact absurd hr (by simp)
                · rw [hlo] at hr
                  rcases o with _ | info₂
                  · exact absurd hr (by simp)
                  · have haT : a ≠ T := by
                      intro he
                      rw [he] at hs
                      rw [hs] at hcache
                      simp at hcache
                    have hcnt := hR w c a info₂ v w₁ hwf hlo hcache hr
                    have hev := runCtor_evolve f w c info₂ _ _ hr
                    rw [if_neg haT] at hcnt
                    exact ⟨by omega, hev.1, hev.2.1, hev.2.2.2.1⟩
              · rw [hs, hsc] at hr
                injection hr with hr1 hr2
                exact ⟨by rw [← hr2], by rw [← hr2], by rw [← hr2], by rw [← hr2]⟩
            · rw [hs] at hr
              injection hr with hr1 hr2
              exact ⟨by rw [← hr2], by rw [← hr2], by rw [← hr2], by rw [← hr2]⟩
        obtain ⟨hcnt₁, hg₁, hc₁, hs₁⟩ := hone
        have hwf₁ : WfPair w₁.graph w₁.constructors := by rw [hg₁, hc₁]; exact hwf
        have hcache₁ : (lookupA w₁.singletonsCache T).isSome := by rw [hs₁]; exact hcache
        have := ih w₁ vs₂ w₂ hwf₁ hcache₁ hl
        omega

theorem runCtor_count_cached : ∀ (f : Nat) (T : RType) (w : World) (c : Container)
    (x : RType) (info : CtorInfo) (v : Value) (w' : World),
    WfPair w.graph w.constructors → lookupA w.constructors x = some (some info) →
    (lookupA w.singletonsCache T).isSome →
    runCtor f w c info = (.ok v, w') →
    w'.calls.count T = w.calls.count T + (if x = T then 1 else 0) := by
  intro f
  induction f with
  | zero =>
    intro T w c x info v w' _ _ _ h
    unfold runCtor at h
    exact absurd h (by simp)
  | succ f ih =>
    intro T w c x info v w' hwf hlook hcache h
    unfold runCtor at h
    rcases hl : argsLoop (fun w₀ i => runCtor f w₀ c i) c w info.argTypes with ⟨out₁, w₁⟩
    rw [hl] at h
    cases out₁ with
    | err e => exact absurd h (by simp)
    | crash => exact absurd h (by simp)
    | spin => exact absurd h (by simp)
    | ok vs =>
      injection h with h1 h2
      have hp := wfPair_lookup hwf hlook
      have hcnt := argsLoop_count_of f T (fun w c x i v w' a b d e => ih T w c x i v w' a b d e)
        w c info.argTypes vs w₁ hwf hcache hl
      have : w'.calls = w₁.calls ++ [info.outType] := by rw [← h2]
      rw [this, List.count_append, hp.1]
      by_cases hxT : x = T
      · simp [hxT, hcnt]
      · simp [hxT, hcnt, List.count_singleton]

theorem noLongChain_mono {g : Graph} {x : Node} {f f' : Nat}
    (h : NoLongChain g x f) (hle : f ≤ f') : NoLongChain g x f' :=
  fun l hl => lt_of_lt_of_le (h l hl) hle

theorem lookupA_updA_isSome {α β : Type} [DecidableEq α] {l : List (α × β)} {k T : α} {v : β}
    (h : (lookupA l T).isSome ∨ T = k) : (lookupA (updA l k v) T).isSome := by
  by_cases hTk : T = k
  · rw [hTk, lookupA_updA_self]
    simp
  · rw [lookupA_updA_other l k T v (fun he => hTk he.symm)]
    rcases h with h | h
    · exact h
    · exact absurd h hTk

/-- Counting the provider calls of one successful top-level construction
of `T`: when the dependency graph is acyclic at `T`, the constructor of
`T` itself runs exactly once (its arguments cannot reach `T` back). -/
theorem runCtor_count_own (f : Nat) (T : RType) (w : World) (c : Container)
    (info : CtorInfo) (v : Value) (w' : World)
    (hwf : WfPair w.graph w.constructors)
    (hlook : lookupA w.constructors T = some (some info))
    (hacyc : ¬ Relation.TransGen (Edge w.graph) (some T) (some T))
    (h : runCtor f w c info = (.ok v, w')) :
    w'.calls.count T = w.calls.count T + 1 := by
  cases f with
  | zero =>
    unfold runCtor at h
    exact absurd h (by simp)
  | succ f =>
    unfold runCtor at h
    rcases hl : argsLoop (fun w₀ i => runCtor f w₀ c i) c w info.argTypes with ⟨out₁, w₁⟩
    rw [hl] at h
    cases out₁ with
    | err e => exact absurd h (by simp)
    | crash => exact absurd h (by simp)
    | spin => exact absurd h (by simp)
    | ok vs =>
      injection h with h1 h2
      have hp := wfPair_lookup hwf hlook
      obtain ⟨δ, hδ, hreach⟩ := argsLoop_reach_of f
        (fun w c x i v w' a b d => runCtor_calls_reach f w c x i v w' a b d)
        w c info.argTypes vs w₁ hwf hl
      have hTδ : T ∉ δ := by
        intro hT
        obtain ⟨a, ha, hne, hre⟩ := hreach T hT
        exact hacyc (Relation.TransGen.head'_iff.mpr ⟨some a, (hp.2 a ha hne).1, hre⟩)
      have hc' : w'.calls = w.calls ++ δ ++ [T] := by
        rw [← h2]
        simp [hδ, hp.1]
      rw [hc']
      simp [List.count_append, List.count_eq_zero_of_not_mem hTδ]

/-- The registry scan of `Build` succeeds turn by turn: it aggregates one
missing-registration line per placeholder in iteration order, eagerly
builds and caches every Singleton entry, and touches nothing else. -/
theorem buildLoop_spec (fuel : Nat) (c : Container) (g : Graph)
    (ctors : List (RType × Option CtorInfo)) (lifs : List (RType × Nat))
    (hwf : WfPair g ctors)
    (hsing : ∀ t, lookupA lifs t = some Singleton →
      (∃ info, lookupA ctors t = some (some info)) ∧ RealReach g ctors t)
    (hacyc : ¬ hasCycle g)
    (hfuel : (keysOf g).dedup.length + 1 ≤ fuel) :
    ∀ (ts : List RType) (w : World) (errs : List RType),
      w.graph = g → w.constructors = ctors → w.lifetimes = lifs →
      ∃ w', buildLoop fuel c w ts errs =
          (.ok (errs ++ ts.filter (fun t => decide (lookupA ctors t = some none))), w') ∧
        w'.graph = g ∧ w'.constructors = ctors ∧ w'.lifetimes = lifs ∧
        w'.scopedHeap = w.scopedHeap ∧
        (∀ T, (lookupA w.singletonsCache T).isSome → (lookupA w'.singletonsCache T).isSome) ∧
        (∀ T ∈ ts, lookupA lifs T = some Singleton → (lookupA w'.singletonsCache T).isSome) := by
  intro ts
  induction ts with
  | nil =>
    intro w errs hg hc hlf
    exact ⟨w, by simp [buildLoop], hg, hc, hlf, rfl, fun T h => h, by simp⟩
  | cons t ts ih =>
    intro w errs hg hc hlf
    have herrs : collectErr w t errs =
        errs ++ (if (lookupA ctors t = some none) then [t] else []) := by
      unfold collectErr
      rw [hc]
      rcases hlo : lookupA ctors t with _ | o
      · simp
      · rcases o with _ | i
        · simp
        · simp
    have hfilter : (t :: ts).filter (fun t => decide (lookupA ctors t = some none)) =
        (if (lookupA ctors t = some none) then [t] else []) ++
          ts.filter (fun t => decide (lookupA ctors t = some none)) := by
      by_cases hpl : lookupA ctors t = some none
      · simp [List.filter_cons, hpl]
      · simp [List.filter_cons, hpl]
    rcases hlt : lookupA w.lifetimes t with _ | lt
    · -- no lifetime entry: no eager build this turn
      obtain ⟨w', hrec, hg', hc', hlf', hh', hmono', hsing'⟩ := ih w
        (collectErr w t errs) hg hc hlf
      have hstep : buildLoop fuel c w (t :: ts) errs =
          buildLoop fuel c w ts (collectErr w t errs) := by
        simp only [buildLoop, hlt]
      refine ⟨w', ?_, hg', hc', hlf', hh', hmono', ?_⟩
      · rw [hstep, hrec, hfilter, herrs]
        simp [List.append_assoc]
      · intro T hT hTs
        rcases List.mem_cons.mp hT with he | he
        · rw [he] at hTs
          rw [hlf] at hlt
          rw [hTs] at hlt
          cases hlt
        · exact hsing' T he hTs
    · by_cases hlts : lt = Singleton
      · -- eager singleton build
        subst hlts
        have hltl : lookupA lifs t = some Singleton := by rw [← hlf]; exact hlt
        obtain ⟨⟨info, hinfo⟩, hreal⟩ := hsing t hltl
        have hwfw : WfPair w.graph w.constructors := by rw [hg, hc]; exact hwf
        have hlookw : lookupA w.constructors t = some (some info) := by rw [hc]; exact hinfo
        have hrealw : RealReach w.graph w.constructors t := by rw [hg, hc]; exact hreal
        have hchainw : NoLongChain w.graph (some t) fuel := by
          rw [hg]
          exact noLongChain_mono (noLongChain_of_acyclic hacyc (some t)) hfuel
        obtain ⟨v, w₁, hrun⟩ := runCtor_ok fuel w c t info hwfw hlookw hrealw hchainw
        have hev := runCtor_evolve fuel w c info _ _ hrun
        obtain ⟨w', hrec, hg', hc', hlf', hh', hmono', hsing'⟩ := ih
          { w₁ with singletonsCache := updA w₁.singletonsCache t v }
          (collectErr w t errs)
          (by show w₁.graph = g; rw [hev.1, hg])
          (by show w₁.constructors = ctors; rw [hev.2.1, hc])
          (by show w₁.lifetimes = lifs; rw [hev.2.2.1, hlf])
        have hstep : buildLoop fuel c w (t :: ts) errs =
            buildLoop fuel c { w₁ with singletonsCache := updA w₁.singletonsCache t v } ts
              (collectErr w t errs) := by
          simp only [buildLoop, hlt, hlookw, hrun, eq_self_iff_true, if_true]
        refine ⟨w', ?_, hg', hc', hlf', ?_, ?_, ?_⟩
        · rw [hstep, hrec, hfilter, herrs]
          simp [List.append_assoc]
        · rw [hh']
          show w₁.scopedHeap = w.scopedHeap
          rw [hev.2.2.2.2.1]
        · intro T hT
          apply hmono'
          show (lookupA (updA w₁.singletonsCache t v) T).isSome
          apply lookupA_updA_isSome
          left
          rw [hev.2.2.2.1]
          exact hT
        · intro T hT hTs
          rcases List.mem_cons.mp hT with he | he
          · subst he
            apply hmono'
            show (lookupA (updA w₁.singletonsCache T v) T).isSome
            exact lookupA_updA_isSome (Or.inr rfl)
          · exact hsing' T he hTs
      · -- non-singleton lifetime: no eager build this turn
        obtain ⟨w', hrec, hg', hc', hlf', hh', hmono', hsing'⟩ := ih w
          (collectErr w t errs) hg hc hlf
        have hstep : buildLoop fuel c w (t :: ts) errs =
            buildLoop fuel c w ts (collectErr w t errs) := by
          simp only [buildLoop, hlt, if_neg hlts]
        refine ⟨w', ?_, hg', hc', hlf', hh', hmono', ?_⟩
        · rw [hstep, hrec, hfilter, herrs]
          simp [List.append_assoc]
        · intro T hT hTs
          rcases List.mem_cons.mp hT with he | he
          · rw [he] at hTs
            rw [hlf] at hlt
            rw [hTs] at hlt
            injection hlt with hlt
            exact absurd hlt.symm hlts
          · exact hsing' T he hTs

theorem buildLoop_count_zero (fuel : Nat) (c : Container) (T : RType) :
    ∀ (ts : List RType) (w : World) (errs errsOut : List RType) (w' : World),
      WfPair w.graph w.constructors →
      (lookupA w.singletonsCache T).isSome →
      T ∉ ts →
      buildLoop fuel c w ts errs = (.ok errsOut, w') →
      w'.calls.count T = w.calls.count T := by
  intro ts
  induction ts with
  | nil =>
    intro w errs errsOut w' _ _ _ h
    simp [buildLoop] at h
    rw [h.2]
  | cons t ts ih =>
    intro w errs errsOut w' hwf hcache hT h
    have htT : t ≠ T := fun he => hT (he ▸ List.mem_cons_self t ts)
    have hTts : T ∉ ts := fun hc => hT (List.mem_cons_of_mem t hc)
    rcases hlt : lookupA w.lifetimes t with _ | lt
    · rw [show buildLoop fuel c w (t :: ts) errs = buildLoop fuel c w ts (collectErr w t errs)
        from by simp only [buildLoop, hlt]] at h
      exact ih w _ errsOut w' hwf hcache hTts h
    · by_cases hlts : lt = Singleton
      · subst hlts
        rcases hlo : lookupA w.constructors t with _ | o
        · rw [show buildLoop fuel c w (t :: ts) errs = (.crash, w)
            from by simp only [buildLoop, hlt, hlo, eq_self_iff_true, if_true]] at h
          exact absurd h (by simp)
        · rcases o with _ | info
          · rw [show buildLoop fuel c w (t :: ts) errs = (.crash, w)
              from by simp only [buildLoop, hlt, hlo, eq_self_iff_true, if_true]] at h
            exact absurd h (by simp)
          · rcases hrun : runCtor fuel w c info with ⟨out₁, w₁⟩
            cases out₁ with
            | err e =>
              rw [show buildLoop fuel c w (t :: ts) errs = (.err e, w₁)
                from by simp only [buildLoop, hlt, hlo, hrun, eq_self_iff_true, if_true]] at h
              exact absurd h (by simp)
            | crash =>
              rw [show buildLoop fuel c w (t :: ts) errs = (.crash, w₁)
                from by simp only [buildLoop, hlt, hlo, hrun, eq_self_iff_true, if_true]] at h
              exact absurd h (by simp)
            | spin =>
              rw [show buildLoop fuel c w (t :: ts) errs = (.spin, w₁)
                from by simp only [buildLoop, hlt, hlo, hrun, eq_self_iff_true, if_true]] at h
              exact absurd h (by simp)
            | ok v =>
              rw [show buildLoop fuel c w (t :: ts) errs =
                  buildLoop fuel c { w₁ with singletonsCache := updA w₁.singletonsCache t v } ts
                    (collectErr w t errs)
                from by simp only [buildLoop, hlt, hlo, hrun, eq_self_iff_true, if_true]] at h
              have hev := runCtor_evolve fuel w c info _ _ hrun
              have hcnt₁ := runCtor_count_cached fuel T w c t info v w₁ hwf hlo hcache hrun
              rw [if_neg htT] at hcnt₁
              have hwf₂ : WfPair ({ w₁ with singletonsCache := updA w₁.singletonsCache t v} : World).graph
                  ({ w₁ with singletonsCache := updA w₁.singletonsCache t v} : World).constructors := by
                show WfPair w₁.graph w₁.constructors
                rw [hev.1, hev.2.1]
                exact hwf
              have hcache₂ : (lookupA ({ w₁ with
                  singletonsCache := updA w₁.singletonsCache t v} : World).singletonsCache T).isSome := by
                show (lookupA (updA w₁.singletonsCache t v) T).isSome
                apply lookupA_updA_isSome
                left
                rw [hev.2.2.2.1]
                exact hcache
              have := ih _ _ errsOut w' hwf₂ hcache₂ hTts h
              simp only at this
              omega
      · rw [show buildLoop fuel c w (t :: ts) errs = buildLoop fuel c w ts (collectErr w t errs)
          from by simp only [buildLoop, hlt, if_neg hlts]] at h
        exact ih w _ errsOut w' hwf hcache hTts h

theorem buildLoop_count_one (fuel : Nat) (c : Container) (T : RType) :
    ∀ (ts : List RType) (w : World) (errs errsOut : List RType) (w' : World),
      WfPair w.graph w.constructors →
      lookupA w.singletonsCache T = none →
      ts.count T = 1 →
      lookupA w.lifetimes T = some Singleton →
      ¬ Relation.TransGen (Edge w.graph) (some T) (some T) →
      (∀ s ∈ ts, s ≠ T → lookupA w.lifetimes s = some Singleton →
        ¬ Relation.ReflTransGen (Edge w.graph) (some s) (some T)) →
      buildLoop fuel c w ts errs = (.ok errsOut, w') →
      w'.calls.count T = w.calls.count T + 1 := by
  intro ts
  induction ts with
  | nil =>
    intro w errs errsOut w' _ _ hcount _ _ _ _
    simp at hcount
  | cons t ts ih =>
    intro w errs errsOut w' hwf hnone hcount hTlife hacyc hpre h
    rcases hlt : lookupA w.lifetimes t with _ | lt
    · have htT : t ≠ T := by
        intro he
        rw [he, hTlife] at hlt
        cases hlt
      rw [show buildLoop fuel c w (t :: ts) errs = buildLoop fuel c w ts (collectErr w t errs)
        from by simp only [buildLoop, hlt]] at h
      have hcount' : ts.count T = 1 := by
        rw [List.count_cons] at hcount
        simp [htT] at hcount
        omega
      exact ih w _ errsOut w' hwf hnone hcount' hTlife hacyc
        (fun s hs => hpre s (List.mem_cons_of_mem t hs)) h
    · by_cases hlts : lt = Singleton
      · subst hlts
        rcases hlo : lookupA w.constructors t with _ | o
        · rw [show buildLoop fuel c w (t :: ts) errs = (.crash, w)
            from by simp only [buildLoop, hlt, hlo, eq_self_iff_true, if_true]] at h
          exact absurd h (by simp)
        · rcases o with _ | info
          · rw [show buildLoop fuel c w (t :: ts) errs = (.crash, w)
              from by simp only [buildLoop, hlt, hlo, eq_self_iff_true, if_true]] at h
            exact absurd h (by simp)
          · rcases hrun : runCtor fuel w c info with ⟨out₁, w₁⟩
            cases out₁ with
            | err e =>
              rw [show buildLoop fuel c w (t :: ts) errs = (.err e, w₁)
                from by simp only [buildLoop, hlt, hlo, hrun, eq_self_iff_true, if_true]] at h
              exact absurd h (by simp)
            | crash =>
              rw [show buildLoop fuel c w (t :: ts) errs = (.crash, w₁)
                from by simp only [buildLoop, hlt, hlo, hrun, eq_self_iff_true, if_true]] at h
              exact absurd h (by simp)
            | spin =>
              rw [show buildLoop fuel c w (t :: ts) errs = (.spin, w₁)
                from by simp only [buildLoop, hlt, hlo, hrun, eq_self_iff_true, if_true]] at h
              exact absurd h (by simp)
            | ok v =>
              rw [show buildLoop fuel c w (t :: ts) errs =
                  buildLoop fuel c { w₁ with singletonsCache := updA w₁.singletonsCache t v } ts
                    (collectErr w t errs)
                from by simp only [buildLoop, hlt, hlo, hrun, eq_self_iff_true, if_true]] at h
              have hev := runCtor_evolve fuel w c info _ _ hrun
              by_cases htT : t = T
              · -- the turn of T itself: its constructor runs exactly once
                subst htT
                have hcnt₁ := runCtor_count_own fuel t w c info v w₁ hwf hlo hacyc hrun
                have hTts : t ∉ ts := by
                  rw [List.count_cons] at hcount
                  simp at hcount
                  exact List.count_eq_zero.mp hcount
                have hwf₂ : WfPair w₁.graph w₁.constructors := by
                  rw [hev.1, hev.2.1]
                  exact hwf
                have hcache₂ : (lookupA (updA w₁.singletonsCache t v) t).isSome :=
                  lookupA_updA_isSome (Or.inr rfl)
                have hz := buildLoop_count_zero fuel c t ts
                  { w₁ with singletonsCache := updA w₁.singletonsCache t v }
                  _ errsOut w' hwf₂ hcache₂ hTts h
                simp only at hz
                omega
              · -- another Singleton that does not reach T: zero contribution
                have hreach := hpre t (List.mem_cons_self t ts) htT hlt
                obtain ⟨δ, hδ, hδreach⟩ :=
                  runCtor_calls_reach fuel w c t info v w₁ hwf hlo hrun
                have hTδ : T ∉ δ := fun hTd => hreach (hδreach T hTd)
                have hcnt₁ : w₁.calls.count T = w.calls.count T := by
                  rw [hδ]
                  simp [List.count_append, List.count_eq_zero_of_not_mem hTδ]
                have hcount' : ts.count T = 1 := by
                  rw [List.count_cons] at hcount
                  simp [htT] at hcount
                  omega
                have hwf₂ : WfPair ({ w₁ with
                    singletonsCache := updA w₁.singletonsCache t v} : World).graph
                    ({ w₁ with
                    singletonsCache := updA w₁.singletonsCache t v} : World).constructors := by
                  show WfPair w₁.graph w₁.constructors
                  rw [hev.1, hev.2.1]
                  exact hwf
                have hnone₂ : lookupA ({ w₁ with
                    singletonsCache := updA w₁.singletonsCache t v} : World).singletonsCache T
                    = none := by
                  show lookupA (updA w₁.singletonsCache t v) T = none
                  rw [lookupA_updA_other w₁.singletonsCache t T v htT, hev.2.2.2.1]
                  exact hnone
                have hrec := ih { w₁ with singletonsCache := updA w₁.singletonsCache t v }
                  _ errsOut w' hwf₂ hnone₂ hcount'
                  (by show lookupA w₁.lifetimes T = some Singleton; rw [hev.2.2.1]; exact hTlife)
                  (by show ¬ Relation.TransGen (Edge w₁.graph) (some T) (some T)
                      rw [hev.1]; exact hacyc)
                  (by intro s hs hsT hslife
                      show ¬ Relation.ReflTransGen (Edge w₁.graph) (some s) (some T)
                      rw [hev.1]
                      apply hpre s (List.mem_cons_of_mem t hs) hsT
                      rw [← hev.2.2.1]
                      exact hslife) h
                simp only at hrec
                omega
      · have htT : t ≠ T := by
          intro he
          rw [he, hTlife] at hlt
          injection hlt with hlt
          exact hlts hlt.symm
        rw [show buildLoop fuel c w (t :: ts) errs = buildLoop fuel c w ts (collectErr w t errs)
          from by simp only [buildLoop, hlt, if_neg hlts]] at h
        have hcount' : ts.count T = 1 := by
          rw [List.count_cons] at hcount
          simp [htT] at hcount
          omega
        exact ih w _ errsOut w' hwf hnone hcount' hTlife hacyc
          (fun s hs => hpre s (List.mem_cons_of_mem t hs)) h

/-- Constructor invocation never produces a returned Go error: its only
failure modes are a panic (nil constructor) or non-termination. -/
theorem runCtor_no_err : ∀ (f : Nat) (w : World) (c : Container) (info : CtorInfo)
    (e : DIError) (w' : World), runCtor f w c info ≠ (.err e, w') := by
  intro f
  induction f with
  | zero =>
    intro w c info e w' h
    unfold runCtor at h
    simp at h
  | succ f ih =>
    intro w c info e w' h
    unfold runCtor at h
    rcases hl : argsLoop (fun w₀ i => runCtor f w₀ c i) c w info.argTypes with ⟨out₁, w₁⟩
    rw [hl] at h
    have hloop : ∀ (args : List RType) (w₂ : World) (e : DIError) (w₃ : World),
        argsLoop (fun w₀ i => runCtor f w₀ c i) c w₂ args ≠ (.err e, w₃) := by
      intro args
      induction args with
      | nil =>
        intro w₂ e w₃ hh
        unfold argsLoop at hh
        simp at hh
      | cons a rest ihargs =>
        intro w₂ e w₃ hh
        unfold argsLoop at hh
        rcases hr : resolveArg (fun w₀ i => runCtor f w₀ c i) w₂ c a with ⟨out₂, w₄⟩
        rw [hr] at hh
        cases out₂ with
        | ok v =>
          dsimp only at hh
          rcases hl₂ : argsLoop (fun w₀ i => runCtor f w₀ c i) c w₄ rest with ⟨out₃, w₅⟩
          rw [hl₂] at hh
          cases out₃ with
          | ok vs => simp at hh
          | err e₂ =>
            exact ihargs w₄ e₂ w₅ hl₂
          | crash => simp at hh
          | spin => simp at hh
        | err e₂ =>
          simp at hh
          have : resolveArg (fun w₀ i => runCtor f w₀ c i) w₂ c a = (.err e₂, w₄) := hr
          unfold resolveArg at this
          by_cases hctx : a = RType.ctx
          · rw [if_pos hctx] at this
            simp at this
          · rw [if_neg hctx] at this
            rcases hs : lookupA w₂.singletonsCache a with _ | v₀
            · rw [hs] at this
              rcases hsc : lookupA (scopedCacheOf w₂ c) a with _ | v₀
              · rw [hsc] at this
                rcases hlo : lookupA w₂.constructors a with _ | o
                · rw [hlo] at this
                  simp at this
                · rw [hlo] at this
                  rcases o with _ | info₂
                  · simp at this
                  · exact ih w₂ c info₂ e₂ w₄ this
              · rw [hsc] at this
                simp at this
            · rw [hs] at this
              simp at this
        | crash => simp at hh
        | spin => simp at hh
    cases out₁ with
    | ok vs => simp at h
    | err e₂ =>
      exact hloop info.argTypes w e₂ w₁ hl
    | crash => simp at h
    | spin => simp at h

/-- Reading through a scoped-cache write at the container's own slot. -/
theorem scopedCacheOf_write_self {w : World} {c : Container} {i : Nat} {T : RType} {v : Value}
    (href : c.scopedRef = some i) (hlen : i < w.scopedHeap.length) :
    scopedCacheOf (writeScoped w i T v) c =
      updA ((w.scopedHeap.get? i).getD []) T v := by
  unfold scopedCacheOf writeScoped
  rw [href]
  simp [List.getElem?_set_self hlen]

/-- A scoped-cache write at a different slot is invisible. -/
theorem scopedCacheOf_write_other {w : World} {c : Container} {i j : Nat} {T : RType} {v : Value}
    (href : c.scopedRef = some j) (hne : i ≠ j) :
    scopedCacheOf (writeScoped w i T v) c = scopedCacheOf w c := by
  unfold scopedCacheOf writeScoped
  rw [href]
  simp [List.getElem?_set_ne hne]

theorem writeScoped_fields (w : World) (i : Nat) (T : RType) (v : Value) :
    (writeScoped w i T v).graph = w.graph ∧
    (writeScoped w i T v).constructors = w.constructors ∧
    (writeScoped w i T v).lifetimes = w.lifetimes ∧
    (writeScoped w i T v).singletonsCache = w.singletonsCache ∧
    (writeScoped w i T v).fresh = w.fresh ∧
    (writeScoped w i T v).calls = w.calls ∧
    (writeScoped w i T v).scopedHeap.length = w.scopedHeap.length := by
  unfold writeScoped
  simp

/-- `getValue` reduces to the lifetime switch once the marker, registry
and lifetime checks pass. -/
theorem getValue_eq_dispatch {f : Nat} {w : World} {c : Container} {T : RType}
    {o : Option CtorInfo} {lt : Nat}
    (hT : T ≠ RType.ctx) (ho : lookupA w.constructors T = some o)
    (hlt : lookupA w.lifetimes T = some lt) :
    getValue f w c T = getValueDispatch f w c T o lt := by
  unfold getValue
  rw [if_neg hT, ho, hlt]

theorem getValueDispatch_scoped (f : Nat) (w : World) (c : Container) (T : RType)
    (o : Option CtorInfo) :
    getValueDispatch f w c T o Scoped = scopedStage f w c T o := by
  unfold getValueDispatch
  norm_num [Singleton, Scoped]

theorem getValueDispatch_transient (f : Nat) (w : World) (c : Container) (T : RType)
    (o : Option CtorInfo) :
    getValueDispatch f w c T o Transient = construct f w c T o := by
  unfold getValueDispatch
  norm_num [Singleton, Scoped, Transient]

theorem getValue_singleton_hit {f : Nat} {w : World} {c : Container} {T : RType}
    {o : Option CtorInfo} {v : Value}
    (hT : T ≠ RType.ctx) (ho : lookupA w.constructors T = some o)
    (hlt : lookupA w.lifetimes T = some Singleton)
    (hv : lookupA w.singletonsCache T = some v) :
    getValue f w c T = (.ok v, w) := by
  rw [getValue_eq_dispatch hT ho hlt]
  unfold getValueDispatch
  rw [if_pos rfl, hv]

/-- `getValue` never touches the graph, the registry, the lifetimes or
the singleton cache, and allocation ids only grow. -/
theorem getValue_frame : ∀ (f : Nat) (w : World) (c : Container) (T : RType)
    (out : Outcome Value) (w' : World), getValue f w c T = (out, w') →
    w'.graph = w.graph ∧ w'.constructors = w.constructors ∧ w'.lifetimes = w.lifetimes ∧
    w'.singletonsCache = w.singletonsCache ∧ w.fresh ≤ w'.fresh ∧
    w'.scopedHeap.length = w.scopedHeap.length := by
  intro f w c T out w' h
  have hconstruct : ∀ (o : Option CtorInfo),
      construct f w c T o = (out, w') →
      w'.graph = w.graph ∧ w'.constructors = w.constructors ∧ w'.lifetimes = w.lifetimes ∧
      w'.singletonsCache = w.singletonsCache ∧ w.fresh ≤ w'.fresh ∧
      w'.scopedHeap.length = w.scopedHeap.length := by
    intro o hcon
    unfold construct at hcon
    rcases o with _ | info
    · injection hcon with h1 h2
      rw [← h2]
      exact ⟨rfl, rfl, rfl, rfl, le_refl _, rfl⟩
    · dsimp only at hcon
      rcases hrun : runCtor f w c info with ⟨out₁, w₁⟩
      rw [hrun] at hcon
      have hev := runCtor_evolve f w c info _ _ hrun
      cases out₁ with
      | ok v =>
        dsimp only at hcon
        by_cases hsc : c.scope = requestScope
        · rw [if_pos hsc] at hcon
          rcases href : c.scopedRef with _ | i
          · rw [href] at hcon
            injection hcon with h1 h2
            rw [← h2]
            exact ⟨hev.1, hev.2.1, hev.2.2.1, hev.2.2.2.1, hev.2.2.2.2.2.1, by rw [hev.2.2.2.2.1]⟩
          · rw [href] at hcon
            injection hcon with h1 h2
            rw [← h2]
            have hws := writeScoped_fields w₁ i T v
            refine ⟨hws.1.trans hev.1, hws.2.1.trans hev.2.1, hws.2.2.1.trans hev.2.2.1,
              hws.2.2.2.1.trans hev.2.2.2.1, ?_, ?_⟩
            · rw [hws.2.2.2.2.1]
              exact hev.2.2.2.2.2.1
            · rw [hws.2.2.2.2.2.2, hev.2.2.2.2.1]
        · rw [if_neg hsc] at hcon
          injection hcon with h1 h2
          rw [← h2]
          exact ⟨hev.1, hev.2.1, hev.2.2.1, hev.2.2.2.1, hev.2.2.2.2.2.1, by rw [hev.2.2.2.2.1]⟩
      | err e =>
        injection hcon with h1 h2
        rw [← h2]
        exact ⟨hev.1, hev.2.1, hev.2.2.1, hev.2.2.2.1, hev.2.2.2.2.2.1, by rw [hev.2.2.2.2.1]⟩
      | crash =>
        injection hcon with h1 h2
        rw [← h2]
        exact ⟨hev.1, hev.2.1, hev.2.2.1, hev.2.2.2.1, hev.2.2.2.2.2.1, by rw [hev.2.2.2.2.1]⟩
      | spin =>
        injection hcon with h1 h2
        rw [← h2]
        exact ⟨hev.1, hev.2.1, hev.2.2.1, hev.2.2.2.1, hev.2.2.2.2.2.1, by rw [hev.2.2.2.2.1]⟩
  have hstage : scopedStage f w c T (Option.getD (lookupA w.constructors T) none) = (out, w') →
      w'.graph = w.graph ∧ w'.constructors = w.constructors ∧ w'.lifetimes = w.lifetimes ∧
      w'.singletonsCache = w.singletonsCache ∧ w.fresh ≤ w'.fresh ∧
      w'.scopedHeap.length = w.scopedHeap.length := by
    intro hst
    unfold scopedStage at hst
    by_cases hsc : c.scope = requestScope
    · rw [if_pos hsc] at hst
      rcases hcv : lookupA (scopedCacheOf w c) T with _ | v
      · rw [hcv] at hst
        exact hconstruct _ hst
      · rw [hcv] at hst
        injection hst with h1 h2
        rw [← h2]
        exact ⟨rfl, rfl, rfl, rfl, le_refl _, rfl⟩
    · rw [if_neg hsc] at hst
      exact hconstruct _ hst
  unfold getValue at h
  by_cases hT : T = RType.ctx
  · rw [if_pos hT] at h
    injection h with h1 h2
    rw [← h2]
    exact ⟨rfl, rfl, rfl, rfl, le_refl _, rfl⟩
  · rw [if_neg hT] at h
    rcases ho : lookupA w.constructors T with _ | o
    · rw [ho] at h
      injection h with h1 h2
      rw [← h2]
      exact ⟨rfl, rfl, rfl, rfl, le_refl _, rfl⟩
    · rw [ho] at h
      dsimp only at h
      rcases hlt : lookupA w.lifetimes T with _ | lt
      · rw [hlt] at h
        injection h with h1 h2
        rw [← h2]
        exact ⟨rfl, rfl, rfl, rfl, le_refl _, rfl⟩
      · rw [hlt] at h
        dsimp only at h
        unfold getValueDispatch at h
        by_cases h1 : lt = Singleton
        · rw [if_pos h1] at h
          rcases hv : lookupA w.singletonsCache T with _ | v
          · rw [hv] at h
            have : Option.getD (lookupA w.constructors T) none = o := by rw [ho]; rfl
            exact hstage (by rw [this]; exact h)
          · rw [hv] at h
            injection h with h1 h2
            rw [← h2]
            exact ⟨rfl, rfl, rfl, rfl, le_refl _, rfl⟩
        · rw [if_neg h1] at h
          by_cases h2 : lt = Scoped
          · rw [if_pos h2] at h
            have : Option.getD (lookupA w.constructors T) none = o := by rw [ho]; rfl
            exact hstage (by rw [this]; exact h)
          · rw [if_neg h2] at h
            exact hconstruct _ h

/-- Elimination form of a successful `construct`: the provider ran, and
the result was cached into the scoped cache exactly when the container is
in request scope. -/
theorem construct_ok_elim {fuel : Nat} {w : World} {c : Container} {T : RType}
    {info : CtorInfo} {v : Value} {w' : World}
    (h : construct fuel w c T (some info) = (.ok v, w')) :
    ∃ w₁, runCtor fuel w c info = (.ok v, w₁) ∧
      ((c.scope = requestScope ∧ ∃ i, c.scopedRef = some i ∧ w' = writeScoped w₁ i T v) ∨
       (c.scope ≠ requestScope ∧ w' = w₁)) := by
  unfold construct at h
  dsimp only at h
  rcases hrun : runCtor fuel w c info with ⟨out₁, w₁⟩
  rw [hrun] at h
  cases out₁ with
  | err e => exact absurd h (by simp)
  | crash => exact absurd h (by simp)
  | spin => exact absurd h (by simp)
  | ok v₀ =>
    dsimp only at h
    by_cases hsc : c.scope = requestScope
    · rw [if_pos hsc] at h
      rcases href : c.scopedRef with _ | i
      · rw [href] at h
        exact absurd h (by simp)
      · rw [href] at h
        injection h with h1 h2
        injection h1 with h1
        subst h1
        exact ⟨w₁, rfl, Or.inl ⟨hsc, i, rfl, h2.symm⟩⟩
    · rw [if_neg hsc] at h
      injection h with h1 h2
      injection h1 with h1
      subst h1
      exact ⟨w₁, rfl, Or.inr ⟨hsc, h2.symm⟩⟩

/-- Elimination form of a successful `scopedStage`: either a request-scope
cache hit (world untouched), or fall-through to construction. -/
theorem scopedStage_elim {fuel : Nat} {w : World} {c : Container} {T : RType}
    {o : Option CtorInfo} {v : Value} {w' : World}
    (h : scopedStage fuel w c T o = (.ok v, w')) :
    (c.scope = requestScope ∧ lookupA (scopedCacheOf w c) T = some v ∧ w' = w) ∨
    (construct fuel w c T o = (.ok v, w') ∧
      (c.scope = requestScope → lookupA (scopedCacheOf w c) T = none)) := by
  unfold scopedStage at h
  by_cases hsc : c.scope = requestScope
  · rw [if_pos hsc] at h
    rcases hcv : lookupA (scopedCacheOf w c) T with _ | v₀
    · rw [hcv] at h
      exact Or.inr ⟨h, fun _ => rfl⟩
    · rw [hcv] at h
      injection h with h1 h2
      injection h1 with h1
      exact Or.inl ⟨hsc, by rw [h1], h2.symm⟩
  · rw [if_neg hsc] at h
    exact Or.inr ⟨h, fun hc => absurd hc hsc⟩

/-- Successful construction exists under the registration invariant. -/
theorem construct_ok (fuel : Nat) (w : World) (c : Container) (T : RType) (info : CtorInfo)
    (hwf : WfPair w.graph w.constructors)
    (ho : lookupA w.constructors T = some (some info))
    (hreal : RealReach w.graph w.constructors T)
    (hchain : NoLongChain w.graph (some T) fuel)
    (href : c.scope = requestScope → ∃ i, c.scopedRef = some i) :
    ∃ v w', construct fuel w c T (some info) = (.ok v, w') := by
  obtain ⟨v, w₁, hrun⟩ := runCtor_ok fuel w c T info hwf ho hreal hchain
  by_cases hsc : c.scope = requestScope
  · obtain ⟨i, hi⟩ := href hsc
    refine ⟨v, writeScoped w₁ i T v, ?_⟩
    unfold construct
    dsimp only
    rw [hrun]
    dsimp only
    rw [if_pos hsc, hi]
  · refine ⟨v, w₁, ?_⟩
    unfold construct
    dsimp only
    rw [hrun]
    dsimp only
    rw [if_neg hsc]

/-- Under the registration invariant and full transitive registration,
`getValue` succeeds for every lifetime value. -/
theorem getValue_ok (fuel : Nat) (w : World) (c : Container) (T : RType) (info : CtorInfo)
    (lt : Nat)
    (hT : T ≠ RType.ctx)
    (ho : lookupA w.constructors T = some (some info))
    (hlt : lookupA w.lifetimes T = some lt)
    (hwf : WfPair w.graph w.constructors)
    (hreal : RealReach w.graph w.constructors T)
    (hchain : NoLongChain w.graph (some T) fuel)
    (href : c.scope = requestScope → ∃ i, c.scopedRef = some i) :
    ∃ v w', getValue fuel w c T = (.ok v, w') := by
  rw [getValue_eq_dispatch hT ho hlt]
  have hstage : (∃ v w', scopedStage fuel w c T (some info) = (.ok v, w')) := by
    unfold scopedStage
    by_cases hsc : c.scope = requestScope
    · rw [if_pos hsc]
      rcases hcv : lookupA (scopedCacheOf w c) T with _ | v₀
      · exact construct_ok fuel w c T info hwf ho hreal hchain href
      · exact ⟨v₀, w, rfl⟩
    · rw [if_neg hsc]
      exact construct_ok fuel w c T info hwf ho hreal hchain href
  unfold getValueDispatch
  by_cases h1 : lt = Singleton
  · rw [if_pos h1]
    rcases hv : lookupA w.singletonsCache T with _ | v₀
    · exact hstage
    · exact ⟨v₀, w, rfl⟩
  · rw [if_neg h1]
    by_cases h2 : lt = Scoped
    · rw [if_pos h2]
      exact hstage
    · rw [if_neg h2]
      exact construct_ok fuel w c T info hwf ho hreal hchain href

/-- A cached argument (singleton cache first, then scoped cache) resolves
to the cached value without running any constructor. -/
theorem resolveArg_cached {step : World → CtorInfo → Outcome Value × World}
    {w : World} {c : Container} {T : RType} {v : Value}
    (hT : T ≠ RType.ctx)
    (hhit : lookupA w.singletonsCache T = some v ∨
      (lookupA w.singletonsCache T = none ∧ lookupA (scopedCacheOf w c) T = some v)) :
    resolveArg step w c T = (.ok v, w) := by
  unfold resolveArg
  rw [if_neg hT]
  rcases hhit with h | ⟨h1, h2⟩
  · rw [h]
  · rw [h1, h2]

/-- Positional characterization: when `T` is cached, every occurrence of
`T` in an argument list resolves to the cached value. -/
theorem argsLoop_gets_cached (f : Nat) (c : Container) (T : RType) (v : Value)
    (hT : T ≠ RType.ctx) :
    ∀ (args : List RType) (w : World) (vs : List Value) (w' : World),
      (lookupA w.singletonsCache T = some v ∨
        (lookupA w.singletonsCache T = none ∧ lookupA (scopedCacheOf w c) T = some v)) →
      argsLoop (fun w₀ i => runCtor f w₀ c i) c w args = (.ok vs, w') →
      ∀ j, args.get? j = some T → vs.get? j = some v := by
  intro args
  induction args with
  | nil =>
    intro w vs w' _ _ j hj
    simp at hj
  | cons a rest ih =>
    intro w vs w' hhit h j hj
    unfold argsLoop at h
    rcases hr : resolveArg (fun w₀ i => runCtor f w₀ c i) w c a with ⟨out₁, w₁⟩
    rw [hr] at h
    cases out₁ with
    | err e => exact absurd h (by simp)
    | crash => exact absurd h (by simp)
    | spin => exact absurd h (by simp)
    | ok v₁ =>
      dsimp only at h
      rcases hl : argsLoop (fun w₀ i => runCtor f w₀ c i) c w₁ rest with ⟨out₂, w₂⟩
      rw [hl] at h
      cases out₂ with
      | err e => exact absurd h (by simp)
      | crash => exact absurd h (by simp)
      | spin => exact absurd h (by simp)
      | ok vs₂ =>
        injection h with h1 h2
        injection h1 with h1
        subst h1
        have hev : CtorEvolve w w₁ :=
          resolveArg_evolve _ (fun w i out w' hh => runCtor_evolve f w c i out w' hh) w c a
            _ _ hr
        have hhit₁ : lookupA w₁.singletonsCache T = some v ∨
            (lookupA w₁.singletonsCache T = none ∧
              lookupA (scopedCacheOf w₁ c) T = some v) := by
          have hsing : w₁.singletonsCache = w.singletonsCache := hev.2.2.2.1
          have hheap : w₁.scopedHeap = w.scopedHeap := hev.2.2.2.2.1
          have hsc : scopedCacheOf w₁ c = scopedCacheOf w c := by
            unfold scopedCacheOf
            rw [hheap]
          rw [hsing, hsc]
          exact hhit
        cases j with
        | zero =>
          simp at hj
          subst hj
          have := @resolveArg_cached (fun w₀ i => runCtor f w₀ c i) _ _ _ _ hT hhit
          rw [this] at hr
          injection hr with hr1 hr2
          injection hr1 with hr1
          simp [← hr1]
        | succ j =>
          simp only [List.get?_cons_succ] at hj ⊢
          exact ih w₁ vs₂ w₂ hhit₁ hl j hj

/-- `Invoke` propagates the first parameter's resolution error. -/
theorem invoke_cons_err {fuel : Nat} {c : Container} {w : World} {p : RType}
    {ps : List RType} {e : DIError} {w₁ : World}
    (h : getValue fuel w c p = (.err e, w₁)) :
    invoke fuel c w (p :: ps) = (.err e, w₁) := by
  unfold invoke
  rw [h]

/-- `Invoke` never changes the singleton cache (nor registry or graph). -/
theorem invoke_frame : ∀ (fuel : Nat) (c : Container) (ps : List RType) (w : World)
    (out : Outcome (List Value)) (w' : World), invoke fuel c w ps = (out, w') →
    w'.graph = w.graph ∧ w'.constructors = w.constructors ∧ w'.lifetimes = w.lifetimes ∧
    w'.singletonsCache = w.singletonsCache := by
  intro fuel c ps
  induction ps with
  | nil =>
    intro w out w' h
    unfold invoke at h
    injection h with h1 h2
    rw [← h2]
    exact ⟨rfl, rfl, rfl, rfl⟩
  | cons p ps ih =>
    intro w out w' h
    unfold invoke at h
    rcases hg : getValue fuel w c p with ⟨out₁, w₁⟩
    rw [hg] at h
    have hf₁ := getValue_frame fuel w c p out₁ w₁ hg
    cases out₁ with
    | ok v =>
      dsimp only at h
      rcases hi : invoke fuel c w₁ ps with ⟨out₂, w₂⟩
      rw [hi] at h
      have hf₂ := ih w₁ out₂ w₂ hi
      cases out₂ with
      | ok vs =>
        injection h with h1 h2
        rw [← h2]
        exact ⟨hf₂.1.trans hf₁.1, hf₂.2.1.trans hf₁.2.1, hf₂.2.2.1.trans hf₁.2.2.1,
          hf₂.2.2.2.trans hf₁.2.2.2.1⟩
      | err e =>
        injection h with h1 h2
        rw [← h2]
        exact ⟨hf₂.1.trans hf₁.1, hf₂.2.1.trans hf₁.2.1, hf₂.2.2.1.trans hf₁.2.2.1,
          hf₂.2.2.2.trans hf₁.2.2.2.1⟩
      | crash =>
        injection h with h1 h2
        rw [← h2]
        exact ⟨hf₂.1.trans hf₁.1, hf₂.2.1.trans hf₁.2.1, hf₂.2.2.1.trans hf₁.2.2.1,
          hf₂.2.2.2.trans hf₁.2.2.2.1⟩
      | spin =>
        injection h with h1 h2
        rw [← h2]
        exact ⟨hf₂.1.trans hf₁.1, hf₂.2.1.trans hf₁.2.1, hf₂.2.2.1.trans hf₁.2.2.1,
          hf₂.2.2.2.trans hf₁.2.2.2.1⟩
    | err e =>
      injection h with h1 h2
      rw [← h2]
      exact ⟨hf₁.1, hf₁.2.1, hf₁.2.2.1, hf₁.2.2.2.1⟩
    | crash =>
      injection h with h1 h2
      rw [← h2]
      exact ⟨hf₁.1, hf₁.2.1, hf₁.2.2.1, hf₁.2.2.2.1⟩
    | spin =>
      injection h with h1 h2
      rw [← h2]
      exact ⟨hf₁.1, hf₁.2.1, hf₁.2.2.1, hf₁.2.2.2.1⟩

/-- `Invoke` hands every Singleton-cached parameter the cached instance,
at every position where it occurs. -/
theorem invoke_gets_singleton (fuel : Nat) (c : Container) (T : RType) (v : Value)
    (hT : T ≠ RType.ctx) :
    ∀ (ps : List RType) (w : World) (vs : List Value) (w' : World),
      lookupA w.singletonsCache T = some v →
      (∃ o, lookupA w.constructors T = some o) →
      lookupA w.lifetimes T = some Singleton →
      invoke fuel c w ps = (.ok vs, w') →
      ∀ j, ps.get? j = some T → vs.get? j = some v := by
  intro ps
  induction ps with
  | nil =>
    intro w vs w' _ _ _ _ j hj
    simp at hj
  | cons p ps ih =>
    intro w vs w' hv ho hlt h j hj
    unfold invoke at h
    rcases hg : getValue fuel w c p with ⟨out₁, w₁⟩
    rw [hg] at h
    cases out₁ with
    | err e => exact absurd h (by simp)
    | crash => exact absurd h (by simp)
    | spin => exact absurd h (by simp)
    | ok v₁ =>
      dsimp only at h
      rcases hi : invoke fuel c w₁ ps with ⟨out₂, w₂⟩
      rw [hi] at h
      cases out₂ with
      | err e => exact absurd h (by simp)
      | crash => exact absurd h (by simp)
      | spin => exact absurd h (by simp)
      | ok vs₂ =>
        injection h with h1 h2
        injection h1 with h1
        subst h1
        have hf₁ := getValue_frame fuel w c p _ _ hg
        cases j with
        | zero =>
          simp at hj
          subst hj
          obtain ⟨o, hoo⟩ := ho
          rw [getValue_singleton_hit hT hoo hlt hv] at hg
          injection hg with hg1 hg2
          injection hg1 with hg1
          simp [← hg1]
        | succ j =>
          simp only [List.get?_cons_succ] at hj ⊢
          refine ih w₁ vs₂ w₂ ?_ ?_ ?_ hi j hj
          · rw [hf₁.2.2.2.1]; exact hv
          · rw [hf₁.2.1]; obtain ⟨o, hoo⟩ := ho; exact ⟨o, hoo⟩
          · rw [hf₁.2.2.1]; exact hlt

/-- Elimination form of a successful `Build`: cycle detection came back
clean and the registry scan finished with an empty error list. -/
theorem build_ok_elim {fuel : Nat} {w : World} {c : Container} {gOrder : List Node}
    {cOrder : List RType} {w' : World}
    (h : build fuel w c gOrder cOrder = (.ok (), w')) :
    detectCyclicDependencies w.graph gOrder = .clean ∧
    buildLoop fuel c w cOrder [] = (.ok [], w') := by
  unfold build at h
  rcases hd : detectCyclicDependencies w.graph gOrder with _ | ⟨t, dep⟩ | _
  · rw [hd] at h
    exact absurd h (by simp)
  · rw [hd] at h
    exact absurd h (by simp)
  · rw [hd] at h
    rcases hb : buildLoop fuel c w cOrder [] with ⟨out₁, w₁⟩
    rw [hb] at h
    cases out₁ with
    | ok errs =>
      dsimp only at h
      by_cases he : errs = []
      · rw [if_pos he] at h
        injection h with h1 h2
        subst h2
        subst he
        exact ⟨rfl, rfl⟩
      · rw [if_neg he] at h
        exact absurd h (by simp)
    | err e => exact absurd h (by simp)
    | crash => exact absurd h (by simp)
    | spin => exact absurd h (by simp)

/-- Executable check of the registration invariant, for concrete worlds. -/
def wfEntryB (g : Graph) (ctors : List (RType × Option CtorInfo))
    (p : RType × Option CtorInfo) : Bool :=
  match p.2 with
  | none => true
  | some info =>
    decide (info.outType = p.1) &&
    info.argTypes.all (fun a =>
      if a = RType.ctx then true
      else decide (Edge g (some p.1) (some a)) && (lookupA ctors a).isSome)

/-- Executable registration invariant. -/
def wfPairB (g : Graph) (ctors : List (RType × Option CtorInfo)) : Bool :=
  ctors.all (wfEntryB g ctors)

theorem wfPairB_correct {g : Graph} {ctors : List (RType × Option CtorInfo)}
    (h : wfPairB g ctors = true) : WfPair g ctors := by
  intro p hp info hinfo
  have hentry := List.all_eq_true.mp h p hp
  unfold wfEntryB at hentry
  rw [hinfo] at hentry
  simp only [Bool.and_eq_true, decide_eq_true_eq, List.all_eq_true] at hentry
  refine ⟨hentry.1, ?_⟩
  intro a ha hne
  have := hentry.2 a ha
  rw [if_neg hne] at this
  simp only [Bool.and_eq_true, decide_eq_true_eq] at this
  exact this

/-- When every registry entry has a real constructor, every reachability
condition holds trivially. -/
theorem realReach_of_allReal {g : Graph} {ctors : List (RType × Option CtorInfo)}
    (h : ctors.all (fun p => p.2.isSome) = true) (x : RType) : RealReach g ctors x := by
  intro y _ hc
  have := List.all_eq_true.mp h (y, none) (lookupA_mem hc)
  simp at this

theorem acyclic_no_self {g : Graph} (h : ¬ hasCycle g) (t : Node) :
    ¬ Relation.TransGen (Edge g) t t :=
  fun hc => h ⟨t, hc⟩

theorem buildLoop_no_err : ∀ (fuel : Nat) (c : Container) (ts : List RType) (w : World)
    (errs : List RType) (e : DIError) (w' : World),
    buildLoop fuel c w ts errs ≠ (.err e, w') := by
  intro fuel c ts
  induction ts with
  | nil =>
    intro w errs e w' h
    unfold buildLoop at h
    simp at h
  | cons t ts ih =>
    intro w errs e w' h
    unfold buildLoop at h
    rcases hlt : lookupA w.lifetimes t with _ | lt
    · rw [hlt] at h
      exact ih w _ e w' h
    · rw [hlt] at h
      dsimp only at h
      by_cases hlts : lt = Singleton
      · rw [if_pos hlts] at h
        rcases hlo : lookupA w.constructors t with _ | o
        · rw [hlo] at h
          simp at h
        · rw [hlo] at h
          rcases o with _ | info
          · simp at h
          · dsimp only at h
            rcases hrun : runCtor fuel w c info with ⟨out₁, w₁⟩
            rw [hrun] at h
            cases out₁ with
            | ok v => exact ih _ _ e w' h
            | err e₂ =>
              exact runCtor_no_err fuel w c info e₂ w₁ hrun
            | crash => simp at h
            | spin => simp at h
      · rw [if_neg hlts] at h
        exact ih w _ e w' h

/-- Concrete example types used by the witnesses and counterexamples. -/
def tyA : RType := .ty 0

def tyB : RType := .ty 1

/-- Register A(b B) then B(): a two-node cycle-free set, both Singleton. -/
def exTwoSingW : World :=
  (register (register newWorld tyA [tyB] Singleton).2 tyB [] Singleton).2

/-- Register A(b B) and B(a A): a directed cycle. -/
def exCycleW : World :=
  (register (register newWorld tyA [tyB] Transient).2 tyB [tyA] Transient).2

/-- Register only B(a A) as Transient: A stays a placeholder. -/
def exPlaceholderW : World := (register newWorld tyB [tyA] Transient).2

/-- Register only B(a A) as Singleton: eager build will hit the
placeholder. -/
def exSingPlaceholderW : World := (register newWorld tyB [tyA] Singleton).2

/-- Register A() as Scoped. -/
def exScopedW : World := (register newWorld tyA [] Scoped).2

/-- Register A() as Transient. -/
def exTransientW : World := (register newWorld tyA [] Transient).2

/-- Register A() as Singleton. -/
def exSingW : World := (register newWorld tyA [] Singleton).2

/-- C1: `detectCyclicDependencies` (and hence `Build`) reports a
cyclic-dependency error if and only if the dependency graph contains a
directed cycle, for every order of the unordered key traversal; in
particular on an acyclic graph the DFS (with visited-pruning and
backtrack-clearing of on-stack marks) never reports a cycle, and on a
cyclic graph Build always fails with the cyclic-dependency error. -/
theorem C1_detect_cycles_iff_build (w : World) (c : Container) (fuel : Nat)
    (gOrder : List Node) (cOrder : List RType)
    (hcov : ∀ k ∈ keysOf w.graph, k ∈ gOrder)
    (hkeys : ∀ t ∈ gOrder, t ∈ keysOf w.graph) :
    ((∃ t dep, detectCyclicDependencies w.graph gOrder = .found t dep) ↔ hasCycle w.graph) ∧
    ((∃ t dep w', build fuel w c gOrder cOrder = (.err (.cyclicDependency t dep), w')) ↔
      hasCycle w.graph) := by
  have hiff := detect_iff_hasCycle hcov hkeys
  refine ⟨hiff, ?_, ?_⟩
  · rintro ⟨t, dep, w', h⟩
    unfold build at h
    rcases hd : detectCyclicDependencies w.graph gOrder with _ | ⟨t', dep'⟩ | _
    · rw [hd] at h
      exact absurd h (by simp)
    · exact detect_found_hasCycle hd
    · rw [hd] at h
      rcases hb : buildLoop fuel c w cOrder [] with ⟨out₁, w₁⟩
      rw [hb] at h
      cases out₁ with
      | ok errs =>
        dsimp only at h
        by_cases he : errs = []
        · rw [if_pos he] at h
          simp at h
        · rw [if_neg he] at h
          simp at h
      | err e => exact absurd hb (buildLoop_no_err fuel c cOrder w [] e w₁)
      | crash => exact absurd h (by simp)
      | spin => exact absurd h (by simp)
  · intro hcyc
    obtain ⟨t, dep, hfound⟩ := hiff.mpr hcyc
    refine ⟨t, dep, w, ?_⟩
    unfold build
    rw [hfound]

theorem C1_witness :
    (∀ k ∈ keysOf exCycleW.graph, k ∈ keysOf exCycleW.graph) ∧
    (∀ t ∈ keysOf exCycleW.graph, t ∈ keysOf exCycleW.graph) ∧
    (((∃ t dep, detectCyclicDependencies exCycleW.graph (keysOf exCycleW.graph) = .found t dep) ↔
        hasCycle exCycleW.graph) ∧
      ((∃ t dep w', build 5 exCycleW newContainer (keysOf exCycleW.graph) [tyA, tyB] =
          (.err (.cyclicDependency t dep), w')) ↔ hasCycle exCycleW.graph)) :=
  ⟨fun _ hk => hk, fun _ hk => hk,
    C1_detect_cycles_iff_build exCycleW newContainer 5 (keysOf exCycleW.graph) [tyA, tyB]
      (fun _ hk => hk) (fun _ hk => hk)⟩

/-- C2 (amended): on an acyclic registration set, provided no
Singleton-lifetime registration transitively requires an unregistered
type, `Build` returns success when no placeholder remains, and otherwise
returns one joined report whose lines are exactly the placeholder types
of the registry iteration (aggregated, not fail-fast).  Without that
proviso Build can panic instead (see the counterexample). -/
theorem C2_build_missing_report (w : World) (c : Container) (fuel : Nat)
    (gOrder : List Node) (cOrder : List RType)
    (hwf : WfPair w.graph w.constructors)
    (hacyc : ¬ hasCycle w.graph)
    (hsing : ∀ q ∈ w.lifetimes, q.2 = Singleton →
      (∃ info, lookupA w.constructors q.1 = some (some info)) ∧
      RealReach w.graph w.constructors q.1)
    (hfuel : (keysOf w.graph).dedup.length + 1 ≤ fuel)
    (hgkeys : ∀ t ∈ gOrder, t ∈ keysOf w.graph) :
    (∀ T, T ∈ cOrder.filter (fun t => decide (lookupA w.constructors t = some none)) ↔
      (T ∈ cOrder ∧ lookupA w.constructors T = some none)) ∧
    (cOrder.filter (fun t => decide (lookupA w.constructors t = some none)) = [] →
      ∃ w', build fuel w c gOrder cOrder = (.ok (), w')) ∧
    (cOrder.filter (fun t => decide (lookupA w.constructors t = some none)) ≠ [] →
      ∃ w', build fuel w c gOrder cOrder =
        (.err (.notRegisteredReport
          (cOrder.filter (fun t => decide (lookupA w.constructors t = some none)))), w')) := by
  have hclean : detectCyclicDependencies w.graph gOrder = .clean := by
    rcases hd : detectCyclicDependencies w.graph gOrder with _ | ⟨t, dep⟩ | _
    · exact absurd hd (detect_ne_fuelOut hgkeys)
    · exact absurd (detect_found_hasCycle hd) hacyc
    · rfl
  have hsing' : ∀ t, lookupA w.lifetimes t = some Singleton →
      (∃ info, lookupA w.constructors t = some (some info)) ∧
      RealReach w.graph w.constructors t := by
    intro t ht
    exact hsing (t, Singleton) (lookupA_mem ht) rfl
  obtain ⟨w', hbl, _, _, _, _, _, _⟩ := buildLoop_spec fuel c w.graph w.constructors
    w.lifetimes hwf hsing' hacyc hfuel cOrder w [] rfl rfl rfl
  rw [List.nil_append] at hbl
  refine ⟨?_, ?_, ?_⟩
  · intro T
    simp [List.mem_filter]
  · intro hempty
    refine ⟨w', ?_⟩
    unfold build
    rw [hclean]
    dsimp only
    rw [hbl]
    dsimp only
    rw [if_pos hempty]
  · intro hne
    refine ⟨w', ?_⟩
    unfold build
    rw [hclean]
    dsimp only
    rw [hbl]
    dsimp only
    rw [if_neg hne]

theorem C2_witness :
    wfPairB exPlaceholderW.graph exPlaceholderW.constructors = true ∧
    detectCyclicDependencies exPlaceholderW.graph (keysOf exPlaceholderW.graph) = .clean ∧
    ((∀ T, T ∈ [tyA, tyB].filter
        (fun t => decide (lookupA exPlaceholderW.constructors t = some none)) ↔
      (T ∈ [tyA, tyB] ∧ lookupA exPlaceholderW.constructors T = some none)) ∧
    ([tyA, tyB].filter
        (fun t => decide (lookupA exPlaceholderW.constructors t = some none)) = [] →
      ∃ w', build 5 exPlaceholderW newContainer (keysOf exPlaceholderW.graph) [tyA, tyB] =
        (.ok (), w')) ∧
    ([tyA, tyB].filter
        (fun t => decide (lookupA exPlaceholderW.constructors t = some none)) ≠ [] →
      ∃ w', build 5 exPlaceholderW newContainer (keysOf exPlaceholderW.graph) [tyA, tyB] =
        (.err (.notRegisteredReport ([tyA, tyB].filter
          (fun t => decide (lookupA exPlaceholderW.constructors t = some none)))), w'))) :=
  ⟨by decide, by decide,
    C2_build_missing_report exPlaceholderW newContainer 5 (keysOf exPlaceholderW.graph)
      [tyA, tyB]
      (wfPairB_correct (by decide))
      (detect_clean_acyclic (fun _ hk => hk) (by decide))
      (fun q hq hq2 => by
        rw [show exPlaceholderW.lifetimes = [(tyB, 3)] from rfl] at hq
        simp at hq
        rw [hq] at hq2
        simp [Singleton] at hq2)
      (by decide) (fun _ hk => hk)⟩

/-- C2 counterexample: an acyclic set with a placeholder (A required but
never registered) where the dependent B is a Singleton: Build panics
(calls the nil constructor during eager singleton construction) instead
of returning the aggregated missing-registration report. -/
theorem C2_counterexample :
    detectCyclicDependencies exSingPlaceholderW.graph (keysOf exSingPlaceholderW.graph) =
      .clean ∧
    lookupA exSingPlaceholderW.constructors tyA = some none ∧
    [tyA, tyB].Perm (exSingPlaceholderW.constructors.map Prod.fst) ∧
    (build 5 exSingPlaceholderW newContainer (keysOf exSingPlaceholderW.graph)
      [tyA, tyB]).1 = .crash := by decide

/-- A Scoped-lifetime `getValue` on a request container with the type in
cache returns the cached value and leaves the world untouched. -/
theorem getValue_scoped_hit {f : Nat} {w : World} {c : Container} {T : RType}
    {o : Option CtorInfo} {v : Value}
    (hT : T ≠ RType.ctx)
    (ho : lookupA w.constructors T = some o)
    (hlt : lookupA w.lifetimes T = some Scoped)
    (hsc : c.scope = requestScope)
    (hhit : lookupA (scopedCacheOf w c) T = some v) :
    getValue f w c T = (.ok v, w) := by
  rw [getValue_eq_dispatch hT ho hlt, getValueDispatch_scoped]
  unfold scopedStage
  rw [if_pos hsc, hhit]

/-- A Scoped-lifetime `getValue` that cannot hit the request cache
constructs a fresh instance; on a request container the instance is also
written into the container's cache slot. -/
theorem getValue_scoped_construct {f : Nat} {w : World} {c : Container} {T : RType}
    {o : Option CtorInfo} {v : Value} {w' : World}
    (hT : T ≠ RType.ctx)
    (hwf : WfPair w.graph w.constructors)
    (ho : lookupA w.constructors T = some o)
    (hlt : lookupA w.lifetimes T = some Scoped)
    (hmiss : c.scope = requestScope → lookupA (scopedCacheOf w c) T = none)
    (h : getValue f w c T = (.ok v, w')) :
    ∃ info id w₁, o = some info ∧ v = Value.obj T id ∧ w.fresh ≤ id ∧ id < w₁.fresh ∧
      runCtor f w c info = (.ok v, w₁) ∧ CtorEvolve w w₁ ∧
      ((c.scope = requestScope ∧ ∃ i, c.scopedRef = some i ∧ w' = writeScoped w₁ i T v) ∨
       (c.scope ≠ requestScope ∧ w' = w₁)) := by
  rw [getValue_eq_dispatch hT ho hlt, getValueDispatch_scoped] at h
  rcases scopedStage_elim h with ⟨hsc, hhit, _⟩ | ⟨hcon, _⟩
  · rw [hmiss hsc] at hhit
    cases hhit
  · rcases o with _ | info
    · unfold construct at hcon
      exact absurd hcon (by simp)
    · obtain ⟨w₁, hrun, hpost⟩ := construct_ok_elim hcon
      obtain ⟨id, hv, hle, hlt', _⟩ := runCtor_ok_shape f w c info v w₁ hrun
      have hout : info.outType = T :=
        (wfPair_lookup hwf (by rw [ho])).1
      exact ⟨info, id, w₁, rfl, by rw [hv, hout], hle, hlt',
        hrun, runCtor_evolve f w c info _ _ hrun, hpost⟩

/-- C3: for a Scoped-lifetime type, two Gets on the same request-derived
container return the identical instance; Gets on two sibling
request-derived containers return distinct instances; and a Get on a
Main-scope container never caches and constructs a fresh instance on
every call. -/
theorem C3_scoped_lifetime (w : World) (c : Container) (f₁ f₂ f₃ f₄ f₅ : Nat) (T : RType)
    (o : Option CtorInfo) (v₁ v₂ v v' : Value) (w₁ w₂ w' w'' : World)
    (hT : T ≠ RType.ctx)
    (hwf : WfPair w.graph w.constructors)
    (ho : lookupA w.constructors T = some o)
    (hlt : lookupA w.lifetimes T = some Scoped) :
    (getValue f₁ (scopedOp (scopedOp w c).1 c).1 (scopedOp w c).2 T = (.ok v₁, w₁) →
      getValue f₂ w₁ (scopedOp w c).2 T = (.ok v₁, w₁)) ∧
    (getValue f₁ (scopedOp (scopedOp w c).1 c).1 (scopedOp w c).2 T = (.ok v₁, w₁) →
      getValue f₃ w₁ (scopedOp (scopedOp w c).1 c).2 T = (.ok v₂, w₂) →
      v₁ ≠ v₂) ∧
    (c.scope = mainScope →
      getValue f₄ w c T = (.ok v, w') →
      ((∃ id, v = Value.obj T id ∧ w.fresh ≤ id ∧ id < w'.fresh) ∧
        w'.scopedHeap = w.scopedHeap ∧ w'.singletonsCache = w.singletonsCache)) ∧
    (c.scope = mainScope →
      getValue f₄ w c T = (.ok v, w') →
      getValue f₅ w' c T = (.ok v', w'') →
      v ≠ v') := by
  have hreq : (2 : Nat) = requestScope := rfl
  set n := w.scopedHeap.length with hn
  set wB : World := (scopedOp (scopedOp w c).1 c).1 with hwB
  set c₁ : Container := (scopedOp w c).2 with hc₁
  set c₂ : Container := (scopedOp (scopedOp w c).1 c).2 with hc₂
  have hc₁ref : c₁.scopedRef = some n := rfl
  have hc₂ref : c₂.scopedRef = some (n + 1) := by
    rw [hc₂]
    show some ((scopedOp w c).1).scopedHeap.length = some (n + 1)
    show some (w.scopedHeap ++ [[]]).length = some (n + 1)
    simp [hn]
  have hc₁sc : c₁.scope = requestScope := rfl
  have hc₂sc : c₂.scope = requestScope := rfl
  have hwBheap : wB.scopedHeap = w.scopedHeap ++ [[]] ++ [[]] := rfl
  have hwBc : wB.constructors = w.constructors := rfl
  have hwBl : wB.lifetimes = w.lifetimes := rfl
  have hwBg : wB.graph = w.graph := rfl
  have hwBf : wB.fresh = w.fresh := rfl
  have hslotn : (wB.scopedHeap.get? n).getD [] = ([] : List (RType × Value)) := by
    rw [hwBheap]
    rw [show (w.scopedHeap ++ [[]] ++ [[]] : List (List (RType × Value))) =
      w.scopedHeap ++ ([[]] ++ [[]]) from by rw [List.append_assoc]]
    rw [List.get?_append_right (by omega : w.scopedHeap.length ≤ n)]
    simp [hn]
  have hslotn1 : ((w.scopedHeap ++ [[]] ++ [[]] :
      List (List (RType × Value))).get? (n + 1)).getD [] = ([] : List (RType × Value)) := by
    rw [show (w.scopedHeap ++ [[]] ++ [[]] : List (List (RType × Value))) =
      (w.scopedHeap ++ [[]]) ++ [[]] from rfl]
    rw [show n + 1 = (w.scopedHeap ++ [[]]).length from by simp [hn]]
    rw [List.get?_concat_length]
    rfl
  have hcache₁ : scopedCacheOf wB c₁ = [] := by
    unfold scopedCacheOf
    rw [hc₁ref]
    exact hslotn
  have hmiss₁ : lookupA (scopedCacheOf wB c₁) T = none := by
    rw [hcache₁]
    rfl
  refine ⟨?_, ?_, ?_, ?_⟩
  · -- same request container: second Get returns the identical instance
    intro h1
    obtain ⟨info, id, w₁', hoinfo, hv, hle, hid, hrun, hev, hpost⟩ :=
      getValue_scoped_construct hT (by rw [hwBg, hwBc]; exact hwf) (by rw [hwBc]; exact ho)
        (by rw [hwBl]; exact hlt) (fun _ => hmiss₁) h1
    rcases hpost with ⟨_, i, hi, hw₁⟩ | ⟨hnsc, _⟩
    · rw [hc₁ref] at hi
      injection hi with hi
      subst hi
      have hlen : n < w₁'.scopedHeap.length := by
        rw [hev.2.2.2.2.1, hwBheap]
        simp
      have hcache' : scopedCacheOf w₁ c₁ =
          updA ((w₁'.scopedHeap.get? n).getD []) T v₁ := by
        rw [hw₁]
        exact scopedCacheOf_write_self hc₁ref hlen
      have hhit : lookupA (scopedCacheOf w₁ c₁) T = some v₁ := by
        rw [hcache']
        exact lookupA_updA_self _ T v₁
      have ho₁ : lookupA w₁.constructors T = some o := by
        rw [hw₁, (writeScoped_fields w₁' n T v₁).2.1, hev.2.1, hwBc]
        exact ho
      have hlt₁ : lookupA w₁.lifetimes T = some Scoped := by
        rw [hw₁, (writeScoped_fields w₁' n T v₁).2.2.1, hev.2.2.1, hwBl]
        exact hlt
      exact getValue_scoped_hit hT ho₁ hlt₁ hc₁sc hhit
    · exact absurd hc₁sc hnsc
  · -- sibling request containers: distinct instances
    intro h1 h2
    obtain ⟨info, id, w₁', hoinfo, hv, hle, hid, hrun, hev, hpost⟩ :=
      getValue_scoped_construct hT (by rw [hwBg, hwBc]; exact hwf) (by rw [hwBc]; exact ho)
        (by rw [hwBl]; exact hlt) (fun _ => hmiss₁) h1
    rcases hpost with ⟨_, i, hi, hw₁⟩ | ⟨hnsc, _⟩
    · rw [hc₁ref] at hi
      injection hi with hi
      subst hi
      -- the sibling's cache slot is still empty in w₁
      have hmiss₂ : lookupA (scopedCacheOf w₁ c₂) T = none := by
        have heq : scopedCacheOf w₁ c₂ = scopedCacheOf w₁' c₂ := by
          rw [hw₁]
          exact scopedCacheOf_write_other hc₂ref (by omega)
        have heq2 : scopedCacheOf w₁' c₂ = [] := by
          unfold scopedCacheOf
          rw [hc₂ref]
          dsimp only
          rw [hev.2.2.2.2.1, hwBheap]
          exact hslotn1
        rw [heq, heq2]
        rfl
      have ho₂ : lookupA w₁.constructors T = some o := by
        rw [hw₁, (writeScoped_fields w₁' n T v₁).2.1, hev.2.1, hwBc]
        exact ho
      have hlt₂ : lookupA w₁.lifetimes T = some Scoped := by
        rw [hw₁, (writeScoped_fields w₁' n T v₁).2.2.1, hev.2.2.1, hwBl]
        exact hlt
      have hwf₂ : WfPair w₁.graph w₁.constructors := by
        rw [hw₁, (writeScoped_fields w₁' n T v₁).1, (writeScoped_fields w₁' n T v₁).2.1,
          hev.1, hev.2.1, hwBg, hwBc]
        exact hwf
      obtain ⟨info₂, id₂, w₂', _, hv₂, hle₂, _, _, _, _⟩ :=
        getValue_scoped_construct hT hwf₂ ho₂ hlt₂ (fun _ => hmiss₂) h2
      have hfr : w₁.fresh = w₁'.fresh := by
        rw [hw₁]
        exact (writeScoped_fields w₁' n T v₁).2.2.2.2.1
      rw [hv, hv₂]
      intro heq
      injection heq with heq1 heq2
      omega
    · exact absurd hc₁sc hnsc
  · -- Main-scope container: always a fresh construction, no caching
    intro hms h1
    obtain ⟨info, id, w₁', hoinfo, hv, hle, hid, hrun, hev, hpost⟩ :=
      getValue_scoped_construct hT hwf ho hlt
        (fun hc => by rw [hms] at hc; cases hc) h1
    rcases hpost with ⟨hsc, _⟩ | ⟨_, hw'⟩
    · rw [hms] at hsc
      cases hsc
    · subst hw'
      exact ⟨⟨id, hv, hle, hid⟩, hev.2.2.2.2.1, hev.2.2.2.1⟩
  · -- Main-scope container: two Gets give distinct instances
    intro hms h1 h2
    obtain ⟨info, id, wr, hoinfo, hv, hle, hid, hrun, hev, hpost⟩ :=
      getValue_scoped_construct hT hwf ho hlt
        (fun hc => by rw [hms] at hc; cases hc) h1
    rcases hpost with ⟨hsc, _⟩ | ⟨_, hw'⟩
    · rw [hms] at hsc
      cases hsc
    · have hf₁ := getValue_frame f₄ w c T _ _ h1
      have hwf' : WfPair w'.graph w'.constructors := by
        rw [hf₁.1, hf₁.2.1]
        exact hwf
      obtain ⟨info₂, id₂, wr₂, _, hv₂, hle₂, _, _, _, _⟩ :=
        getValue_scoped_construct hT hwf' (by rw [hf₁.2.1]; exact ho)
          (by rw [hf₁.2.2.1]; exact hlt)
          (fun hc => by rw [hms] at hc; cases hc) h2
      have hid' : id < w'.fresh := by
        rw [hw']
        exact hid
      rw [hv, hv₂]
      intro heq
      injection heq with heq1 heq2
      omega

/-- The world after deriving the first request container from the Scoped
example. -/
def c3wA : World := (scopedOp exScopedW newContainer).1

/-- The first request-derived container of the Scoped example. -/
def c3c₁ : Container := (scopedOp exScopedW newContainer).2

/-- The world after deriving the sibling request container. -/
def c3wB : World := (scopedOp c3wA newContainer).1

/-- The world after the first Get of the Scoped example. -/
def c3w₁ : World := (getValue 3 c3wB c3c₁ tyA).2

theorem C3_witness :
    getValue 3 c3wB c3c₁ tyA = (.ok (Value.obj tyA 0), c3w₁) ∧
    (getValue 3 c3wB c3c₁ tyA = (.ok (Value.obj tyA 0), c3w₁) →
      getValue 3 c3w₁ c3c₁ tyA = (.ok (Value.obj tyA 0), c3w₁)) :=
  ⟨by decide,
    (C3_scoped_lifetime exScopedW newContainer 3 3 3 3 3 tyA (some ⟨tyA, []⟩)
      (Value.obj tyA 0) (Value.obj tyA 1) (Value.obj tyA 0) (Value.obj tyA 1)
      c3w₁ newWorld newWorld newWorld
      (by decide) (wfPairB_correct (by decide)) (by decide) (by decide)).1⟩

theorem buildLoop_cache_mono (fuel : Nat) (c : Container) (T : RType) :
    ∀ (ts : List RType) (w : World) (errs errsOut : List RType) (w' : World),
      buildLoop fuel c w ts errs = (.ok errsOut, w') →
      (lookupA w.singletonsCache T).isSome →
      (lookupA w'.singletonsCache T).isSome := by
  intro ts
  induction ts with
  | nil =>
    intro w errs errsOut w' h hT
    unfold buildLoop at h
    injection h with h1 h2
    rw [← h2]
    exact hT
  | cons t ts ih =>
    intro w errs errsOut w' h hT
    rcases hlt : lookupA w.lifetimes t with _ | lt
    · rw [show buildLoop fuel c w (t :: ts) errs = buildLoop fuel c w ts (collectErr w t errs)
        from by simp only [buildLoop, hlt]] at h
      exact ih w _ errsOut w' h hT
    · by_cases hlts : lt = Singleton
      · subst hlts
        rcases hlo : lookupA w.constructors t with _ | o
        · rw [show buildLoop fuel c w (t :: ts) errs = (.crash, w)
            from by simp only [buildLoop, hlt, hlo, eq_self_iff_true, if_true]] at h
          exact absurd h (by simp)
        · rcases o with _ | info
          · rw [show buildLoop fuel c w (t :: ts) errs = (.crash, w)
              from by simp only [buildLoop, hlt, hlo, eq_self_iff_true, if_true]] at h
            exact absurd h (by simp)
          · rcases hrun : runCtor fuel w c info with ⟨out₁, w₁⟩
            cases out₁ with
            | err e =>
              rw [show buildLoop fuel c w (t :: ts) errs = (.err e, w₁)
                from by simp only [buildLoop, hlt, hlo, hrun, eq_self_iff_true, if_true]] at h
              exact absurd h (by simp)
            | crash =>
              rw [show buildLoop fuel c w (t :: ts) errs = (.crash, w₁)
                from by simp only [buildLoop, hlt, hlo, hrun, eq_self_iff_true, if_true]] at h
              exact absurd h (by simp)
            | spin =>
              rw [show buildLoop fuel c w (t :: ts) errs = (.spin, w₁)
                from by simp only [buildLoop, hlt, hlo, hrun, eq_self_iff_true, if_true]] at h
              exact absurd h (by simp)
            | ok v =>
              rw [show buildLoop fuel c w (t :: ts) errs =
                  buildLoop fuel c { w₁ with singletonsCache := updA w₁.singletonsCache t v } ts
                    (collectErr w t errs)
                from by simp only [buildLoop, hlt, hlo, hrun, eq_self_iff_true, if_true]] at h
              have hev := runCtor_evolve fuel w c info _ _ hrun
              refine ih _ _ errsOut w' h ?_
              show (lookupA (updA w₁.singletonsCache t v) T).isSome
              apply lookupA_updA_isSome
              left
              rw [hev.2.2.2.1]
              exact hT
      · rw [show buildLoop fuel c w (t :: ts) errs = buildLoop fuel c w ts (collectErr w t errs)
          from by simp only [buildLoop, hlt, if_neg hlts]] at h
        exact ih w _ errsOut w' h hT

theorem buildLoop_ok_singleton_cached (fuel : Nat) (c : Container) (T : RType) :
    ∀ (ts : List RType) (w : World) (errs errsOut : List RType) (w' : World),
      buildLoop fuel c w ts errs = (.ok errsOut, w') →
      T ∈ ts → lookupA w.lifetimes T = some Singleton →
      (lookupA w'.singletonsCache T).isSome := by
  intro ts
  induction ts with
  | nil =>
    intro w errs errsOut w' _ hT
    simp at hT
  | cons t ts ih =>
    intro w errs errsOut w' h hT hTlife
    rcases hlt : lookupA w.lifetimes t with _ | lt
    · have htT : t ≠ T := by
        intro he
        rw [he, hTlife] at hlt
        cases hlt
      rw [show buildLoop fuel c w (t :: ts) errs = buildLoop fuel c w ts (collectErr w t errs)
        from by simp only [buildLoop, hlt]] at h
      rcases List.mem_cons.mp hT with he | he
      · exact absurd he.symm htT
      · exact ih w _ errsOut w' h he hTlife
    · by_cases hlts : lt = Singleton
      · subst hlts
        rcases hlo : lookupA w.constructors t with _ | o
        · rw [show buildLoop fuel c w (t :: ts) errs = (.crash, w)
            from by simp only [buildLoop, hlt, hlo, eq_self_iff_true, if_true]] at h
          exact absurd h (by simp)
        · rcases o with _ | info
          · rw [show buildLoop fuel c w (t :: ts) errs = (.crash, w)
              from by simp only [buildLoop, hlt, hlo, eq_self_iff_true, if_true]] at h
            exact absurd h (by simp)
          · rcases hrun : runCtor fuel w c info with ⟨out₁, w₁⟩
            cases out₁ with
            | err e =>
              rw [show buildLoop fuel c w (t :: ts) errs = (.err e, w₁)
                from by simp only [buildLoop, hlt, hlo, hrun, eq_self_iff_true, if_true]] at h
              exact absurd h (by simp)
            | crash =>
              rw [show buildLoop fuel c w (t :: ts) errs = (.crash, w₁)
                from by simp only [buildLoop, hlt, hlo, hrun, eq_self_iff_true, if_true]] at h
              exact absurd h (by simp)
            | spin =>
              rw [show buildLoop fuel c w (t :: ts) errs = (.spin, w₁)
                from by simp only [buildLoop, hlt, hlo, hrun, eq_self_iff_true, if_true]] at h
              exact absurd h (by simp)
            | ok v =>
              rw [show buildLoop fuel c w (t :: ts) errs =
                  buildLoop fuel c { w₁ with singletonsCache := updA w₁.singletonsCache t v } ts
                    (collectErr w t errs)
                from by simp only [buildLoop, hlt, hlo, hrun, eq_self_iff_true, if_true]] at h
              by_cases htT : t = T
              · subst htT
                refine buildLoop_cache_mono fuel c t ts _ _ errsOut w' h ?_
                show (lookupA (updA w₁.singletonsCache t v) t).isSome
                exact lookupA_updA_isSome (Or.inr rfl)
              · rcases List.mem_cons.mp hT with he | he
                · exact absurd he.symm htT
                · exact ih _ _ errsOut w' h he
                    (by show lookupA w₁.lifetimes T = some Singleton
                        rw [(runCtor_evolve fuel w c info _ _ hrun).2.2.1]
                        exact hTlife)
      · have htT : t ≠ T := by
          intro he
          rw [he, hTlife] at hlt
          injection hlt with hlt
          exact hlts hlt.symm
        rw [show buildLoop fuel c w (t :: ts) errs = buildLoop fuel c w ts (collectErr w t errs)
          from by simp only [buildLoop, hlt, if_neg hlts]] at h
        rcases List.mem_cons.mp hT with he | he
        · exact absurd he.symm htT
        · exact ih w _ errsOut w' h he hTlife

/-- C4 (amended): after one successful Build, every Singleton-lifetime
type is stored in the shared singleton cache and every subsequent Get,
nested constructor-argument resolution or Invoke on any container of the
family returns that identical cached instance (without touching the
world); T's constructor runs exactly once during Build provided no other
Singleton-lifetime registration transitively requires T — under an
iteration order that eagerly builds a dependent Singleton first it can
run more than once (see the counterexample). -/
theorem C4_singleton_lifetime
    (w w' wI wI' : World) (c cA : Container) (fuel fI : Nat) (gOrder : List Node)
    (cOrder ps : List RType) (T : RType) (o : Option CtorInfo) (v : Value) (vs : List Value)
    (j : Nat)
    (hT : T ≠ RType.ctx) :
    (build fuel w c gOrder cOrder = (.ok (), w') → T ∈ cOrder →
      lookupA w.lifetimes T = some Singleton →
      (lookupA w'.singletonsCache T).isSome) ∧
    (lookupA wI.constructors T = some o → lookupA wI.lifetimes T = some Singleton →
      lookupA wI.singletonsCache T = some v →
      getValue fI wI cA T = (.ok v, wI)) ∧
    (lookupA wI.singletonsCache T = some v →
      argsLoop (fun w₀ i => runCtor fI w₀ cA i) cA wI ps = (.ok vs, wI') →
      ps.get? j = some T → vs.get? j = some v) ∧
    (lookupA wI.singletonsCache T = some v → (∃ o₂, lookupA wI.constructors T = some o₂) →
      lookupA wI.lifetimes T = some Singleton →
      invoke fI cA wI ps = (.ok vs, wI') →
      ps.get? j = some T → vs.get? j = some v) ∧
    (WfPair w.graph w.constructors →
      lookupA w.singletonsCache T = none →
      cOrder.count T = 1 →
      lookupA w.lifetimes T = some Singleton →
      (∀ k ∈ keysOf w.graph, k ∈ gOrder) →
      (∀ q ∈ w.lifetimes, q.2 = Singleton → q.1 ≠ T →
        ¬ Relation.ReflTransGen (Edge w.graph) (some q.1) (some T)) →
      build fuel w c gOrder cOrder = (.ok (), w') →
      w'.calls.count T = w.calls.count T + 1) := by
  refine ⟨?_, ?_, ?_, ?_, ?_⟩
  · intro hbuild hmem hlife
    obtain ⟨_, hbl⟩ := build_ok_elim hbuild
    exact buildLoop_ok_singleton_cached fuel c T cOrder w [] [] w' hbl hmem hlife
  · intro ho hlife hv
    exact getValue_singleton_hit hT ho hlife hv
  · intro hv hloop hj
    exact argsLoop_gets_cached fI cA T v hT ps wI vs wI' (Or.inl hv) hloop j hj
  · intro hv ho hlife hinv hj
    exact invoke_gets_singleton fI cA T v hT ps wI vs wI' hv ho hlife hinv j hj
  · intro hwf hnone hcount hlife hgcov hpre hbuild
    obtain ⟨hclean, hbl⟩ := build_ok_elim hbuild
    have hacyc : ¬ hasCycle w.graph := detect_clean_acyclic hgcov hclean
    exact buildLoop_count_one fuel c T cOrder w [] [] w' hwf hnone hcount hlife
      (acyclic_no_self hacyc (some T))
      (fun s _ hsT hslife => hpre (s, Singleton) (lookupA_mem hslife) rfl hsT)
      hbl

/-- The world after building the single-Singleton example. -/
def c4w : World := (build 3 exSingW newContainer (keysOf exSingW.graph) [tyA]).2

theorem C4_witness :
    lookupA c4w.constructors tyA = some (some ⟨tyA, []⟩) ∧
    lookupA c4w.lifetimes tyA = some Singleton ∧
    lookupA c4w.singletonsCache tyA = some (Value.obj tyA 0) ∧
    (lookupA c4w.constructors tyA = some (some ⟨tyA, []⟩) →
      lookupA c4w.lifetimes tyA = some Singleton →
      lookupA c4w.singletonsCache tyA = some (Value.obj tyA 0) →
      getValue 3 c4w newContainer tyA = (.ok (Value.obj tyA 0), c4w)) :=
  ⟨by decide, by decide, by decide,
    (C4_singleton_lifetime exSingW c4w c4w c4w newContainer newContainer 3 3
      (keysOf exSingW.graph) [tyA] [] tyA (some ⟨tyA, []⟩) (Value.obj tyA 0) [] 0
      (by decide)).2.1⟩

/-- C4 counterexample: with A(b B) and B() both Singleton and the map
iteration order that visits A first, B's constructor runs twice during
one successful Build (once nested inside A's eager build, once for B's
own turn), refuting "constructor runs exactly once". -/
theorem C4_counterexample :
    (build 5 exTwoSingW newContainer (keysOf exTwoSingW.graph) [tyA, tyB]).1 = .ok () ∧
    [tyA, tyB].Perm (exTwoSingW.constructors.map Prod.fst) ∧
    lookupA exTwoSingW.lifetimes tyB = some Singleton ∧
    exTwoSingW.calls.count tyB = 0 ∧
    (build 5 exTwoSingW newContainer
      (keysOf exTwoSingW.graph) [tyA, tyB]).2.calls.count tyB = 2 := by decide

/-- Successful construction returns a freshly allocated object: its id is
at least the incoming allocation counter and below the outgoing one. -/
theorem construct_ok_shape {f : Nat} {w : World} {c : Container} {T : RType}
    {o : Option CtorInfo} {v : Value} {w' : World}
    (h : construct f w c T o = (.ok v, w')) :
    ∃ info id, o = some info ∧ v = Value.obj info.outType id ∧
      w.fresh ≤ id ∧ id < w'.fresh := by
  rcases o with _ | info
  · unfold construct at h
    exact absurd h (by simp)
  · obtain ⟨wr, hrun, hor⟩ := construct_ok_elim h
    obtain ⟨id, hv, hle, hlt, _, _⟩ := runCtor_ok_shape f w c info v wr hrun
    refine ⟨info, id, rfl, hv, hle, ?_⟩
    rcases hor with ⟨_, i, _, hw⟩ | ⟨_, hw⟩
    · rw [hw, (writeScoped_fields wr i T v).2.2.2.2.1]
      exact hlt
    · rw [hw]
      exact hlt

/-- C5: for a Transient-lifetime type the top-level resolution path is
exactly the default construction arm — it never reads either cache back —
so each Get constructs a fresh instance and two successive Gets on the same
container return distinct instances; in request scope the fresh instance is
additionally written into the scoped cache under the type's key, and in
main scope no cache is touched. -/
theorem C5_transient_lifetime (f f' : Nat) (w w₁ w₂ : World) (c : Container) (T : RType)
    (o : Option CtorInfo) (v v₁ v₂ : Value) (i : Nat)
    (hT : T ≠ RType.ctx)
    (ho : lookupA w.constructors T = some o)
    (hlt : lookupA w.lifetimes T = some Transient) :
    getValue f w c T = construct f w c T o ∧
    (getValue f w c T = (.ok v, w₁) →
      ∃ info id, o = some info ∧ v = Value.obj info.outType id ∧
        w.fresh ≤ id ∧ id < w₁.fresh) ∧
    (getValue f w c T = (.ok v₁, w₁) → getValue f' w₁ c T = (.ok v₂, w₂) → v₁ ≠ v₂) ∧
    (c.scope = requestScope → c.scopedRef = some i → i < w.scopedHeap.length →
      getValue f w c T = (.ok v, w₁) →
      lookupA (scopedCacheOf w₁ c) T = some v) ∧
    (c.scope ≠ requestScope → getValue f w c T = (.ok v, w₁) →
      w₁.scopedHeap = w.scopedHeap ∧ w₁.singletonsCache = w.singletonsCache) := by
  have hdis : getValue f w c T = construct f w c T o := by
    rw [getValue_eq_dispatch hT ho hlt, getValueDispatch_transient]
  refine ⟨hdis, ?_, ?_, ?_, ?_⟩
  · intro h
    rw [hdis] at h
    exact construct_ok_shape h
  · intro h₁ h₂ heq
    rw [hdis] at h₁
    obtain ⟨info, id₁, _, hv₁, _, hid₁⟩ := construct_ok_shape h₁
    have hfr := getValue_frame f w c T (.ok v₁) w₁ (by rw [hdis]; exact h₁)
    have ho' : lookupA w₁.constructors T = some o := by rw [hfr.2.1]; exact ho
    have hlt' : lookupA w₁.lifetimes T = some Transient := by rw [hfr.2.2.1]; exact hlt
    rw [getValue_eq_dispatch hT ho' hlt', getValueDispatch_transient] at h₂
    obtain ⟨info₂, id₂, _, hv₂, hid₂, _⟩ := construct_ok_shape h₂
    rw [hv₁, hv₂] at heq
    injection heq with _ hid
    rw [hid] at hid₁
    exact absurd hid₂ (by omega)
  · intro hsc hi hlen h
    rw [hdis] at h
    rcases o with _ | info
    · unfold construct at h
      exact absurd h (by simp)
    · obtain ⟨wr, hrun, hor⟩ := construct_ok_elim h
      rcases hor with ⟨_, j, hj, hw⟩ | ⟨hne, _⟩
      · rw [hi] at hj
        injection hj with hj
        subst hj
        have hev := runCtor_evolve f w c info _ _ hrun
        have hlenr : i < wr.scopedHeap.length := by rw [hev.2.2.2.2.1]; exact hlen
        rw [hw, scopedCacheOf_write_self hi hlenr]
        exact lookupA_updA_self _ T v
      · exact absurd hsc hne
  · intro hsc h
    rw [hdis] at h
    rcases o with _ | info
    · unfold construct at h
      exact absurd h (by simp)
    · obtain ⟨wr, hrun, hor⟩ := construct_ok_elim h
      rcases hor with ⟨hsc', _⟩ | ⟨_, hw⟩
      · exact absurd hsc' hsc
      · have hev := runCtor_evolve f w c info _ _ hrun
        rw [hw]
        exact ⟨hev.2.2.2.2.1, hev.2.2.2.1⟩

/-- World after one Get of the Transient example. -/
def c5w₁ : World := (getValue 3 exTransientW newContainer tyA).2

/-- World after a second Get of the Transient example. -/
def c5w₂ : World := (getValue 3 c5w₁ newContainer tyA).2

theorem C5_witness :
    getValue 3 exTransientW newContainer tyA = (.ok (Value.obj tyA 0), c5w₁) ∧
    getValue 3 c5w₁ newContainer tyA = (.ok (Value.obj tyA 1), c5w₂) ∧
    Value.obj tyA 0 ≠ Value.obj tyA 1 :=
  ⟨by decide, by decide,
    (C5_transient_lifetime 3 3 exTransientW c5w₁ c5w₂ newContainer tyA (some ⟨tyA, []⟩)
      (Value.obj tyA 0) (Value.obj tyA 0) (Value.obj tyA 1) 0
      (by decide) (by decide) (by decide)).2.2.1 (by decide) (by decide)⟩

/-- C6: inside a request-derived container a Transient type consumed as a
constructor argument is memoized for the request: the nested argument
lookup reads the scoped cache with no lifetime check at all, so every
argument position of the type receives the instance a top-level Get cached
there, while a direct top-level Get of the same type still constructs
fresh. -/
theorem C6_transient_memoized_as_argument (f f' : Nat) (w w₁ w₂ wa : World) (c : Container)
    (T t : RType) (o : Option CtorInfo) (v v' : Value) (args : List RType)
    (vs : List Value) (i j id : Nat)
    (hT : T ≠ RType.ctx)
    (ho : lookupA w.constructors T = some o)
    (hlt : lookupA w.lifetimes T = some Transient) :
    (lookupA w.singletonsCache T = none → lookupA (scopedCacheOf w c) T = some v →
      resolveArg (fun w₀ i₀ => runCtor f w₀ c i₀) w c T = (.ok v, w)) ∧
    (lookupA w.singletonsCache T = none → lookupA (scopedCacheOf w c) T = some v →
      argsLoop (fun w₀ i₀ => runCtor f w₀ c i₀) c w args = (.ok vs, w₁) →
      args.get? j = some T → vs.get? j = some v) ∧
    (c.scope = requestScope → c.scopedRef = some i → i < w.scopedHeap.length →
      lookupA w.singletonsCache T = none →
      getValue f w c T = (.ok v, w₁) →
      argsLoop (fun w₀ i₀ => runCtor f' w₀ c i₀) c w₁ args = (.ok vs, w₂) →
      args.get? j = some T → vs.get? j = some v) ∧
    (lookupA (scopedCacheOf w c) T = some v → v = Value.obj t id → id < w.fresh →
      getValue f w c T = (.ok v', wa) → v' ≠ v) := by
  refine ⟨?_, ?_, ?_, ?_⟩
  · intro hnone hhit
    exact resolveArg_cached hT (Or.inr ⟨hnone, hhit⟩)
  · intro hnone hhit hloop hj
    exact argsLoop_gets_cached f c T v hT args w vs w₁ (Or.inr ⟨hnone, hhit⟩) hloop j hj
  · intro hsc hi hlen hnone hget hloop hj
    have hfr := getValue_frame f w c T (.ok v) w₁ hget
    rw [getValue_eq_dispatch hT ho hlt, getValueDispatch_transient] at hget
    rcases o with _ | info
    · unfold construct at hget
      exact absurd hget (by simp)
    · obtain ⟨wr, hrun, hor⟩ := construct_ok_elim hget
      rcases hor with ⟨_, i', hi', hw⟩ | ⟨hne, _⟩
      · rw [hi] at hi'
        injection hi' with hi'
        subst hi'
        have hev := runCtor_evolve f w c info _ _ hrun
        have hlenr : i < wr.scopedHeap.length := by rw [hev.2.2.2.2.1]; exact hlen
        have hhit₁ : lookupA (scopedCacheOf w₁ c) T = some v := by
          rw [hw, scopedCacheOf_write_self hi hlenr]
          exact lookupA_updA_self _ T v
        have hnone₁ : lookupA w₁.singletonsCache T = none := by
          rw [hfr.2.2.2.1]
          exact hnone
        exact argsLoop_gets_cached f' c T v hT args w₁ vs w₂ (Or.inr ⟨hnone₁, hhit₁⟩)
          hloop j hj
      · exact absurd hsc hne
  · intro _ hv hid hget heq
    rw [getValue_eq_dispatch hT ho hlt, getValueDispatch_transient] at hget
    obtain ⟨info, id', _, hv', hid', _⟩ := construct_ok_shape hget
    rw [hv', hv] at heq
    injection heq with _ hids
    omega

/-- A request-scope family state over the Transient example. -/
def c6w : World := (scopedOp exTransientW newContainer).1

/-- The request-derived container of that family. -/
def c6c : Container := (scopedOp exTransientW newContainer).2

/-- The family state after one top-level Get on the request container. -/
def c6w₁ : World := (getValue 3 c6w c6c tyA).2

theorem C6_witness :
    c6c.scope = requestScope ∧
    getValue 3 c6w c6c tyA = (.ok (Value.obj tyA 0), c6w₁) ∧
    argsLoop (fun w₀ i₀ => runCtor 3 w₀ c6c i₀) c6c c6w₁ [tyA] =
      (.ok [Value.obj tyA 0], c6w₁) ∧
    [Value.obj tyA 0].get? 0 = some (Value.obj tyA 0) :=
  ⟨by decide, by decide, by decide,
    (C6_transient_memoized_as_argument 3 3 c6w c6w₁ c6w₁ c6w₁ c6c tyA tyA
      (some ⟨tyA, []⟩) (Value.obj tyA 0) (Value.obj tyA 0) [tyA] [Value.obj tyA 0] 0 0 0
      (by decide) (by decide) (by decide)).2.2.1
      (by decide) (by decide) (by decide) (by decide) (by decide) (by decide) (by decide)⟩

/-- Containers producible through the public interface: the root
container, a `Scoped()` derivation under any family state, and a
`WithContext` derivation. -/
inductive ReachableC : Container → Prop where
  | root : ReachableC newContainer
  | fromScoped (w : World) (c : Container) : ReachableC c → ReachableC (scopedOp w c).2
  | withCtx (c : Container) (k v : Nat) : ReachableC c → ReachableC (withContextOp c k v)

/-- C7 (amended): every container produced through the public interface
has scope `main`, `request`, or the zero value 0 — `NewContainer` sets
`main`, `Scoped` sets `request`, but `WithContext` builds its container
with a composite literal that omits the scope field, so every
WithContext-derived container (in particular one derived from a
request-derived container) carries scope 0, which is neither `main` nor
`request`. -/
theorem C7_scope_values (w : World) (c c' : Container) (k v : Nat)
    (h : ReachableC c') :
    (c'.scope = 0 ∨ c'.scope = mainScope ∨ c'.scope = requestScope) ∧
    newContainer.scope = mainScope ∧
    (scopedOp w c).2.scope = requestScope ∧
    (withContextOp c k v).scope = 0 ∧
    (0 : Nat) ≠ mainScope ∧ (0 : Nat) ≠ requestScope := by
  refine ⟨?_, rfl, rfl, rfl, by decide, by decide⟩
  induction h with
  | root => exact Or.inr (Or.inl rfl)
  | fromScoped w₀ c₀ _ _ => exact Or.inr (Or.inr rfl)
  | withCtx c₀ k₀ v₀ _ _ => exact Or.inl rfl

theorem C7_witness :
    (withContextOp newContainer 1 2).scope = 0 ∨
    (withContextOp newContainer 1 2).scope = mainScope ∨
    (withContextOp newContainer 1 2).scope = requestScope :=
  (C7_scope_values newWorld newContainer (withContextOp newContainer 1 2) 1 2
    (.withCtx newContainer 1 2 .root)).1

/-- C7 counterexample: a `WithContext` derivation of a request-derived
container is reachable through the public interface yet its scope is 0,
outside {main, request}. -/
theorem C7_counterexample :
    (withContextOp (scopedOp exScopedW newContainer).2 1 2).scope = 0 ∧
    (withContextOp (scopedOp exScopedW newContainer).2 1 2).scope ≠ mainScope ∧
    (withContextOp (scopedOp exScopedW newContainer).2 1 2).scope ≠ requestScope ∧
    ReachableC (withContextOp (scopedOp exScopedW newContainer).2 1 2) :=
  ⟨rfl, by decide, by decide,
    .withCtx _ 1 2 (.fromScoped exScopedW newContainer .root)⟩

/-- C8: `WithContext` hands the derived container the same scoped-cache
reference (so the same scoped cache under every family state), gives it a
copy of the source's context map extended with the new entry, leaves the
source container's own context lookups untouched at every other key, and
chained derivations accumulate keys without overwriting earlier ones. -/
theorem C8_withContext_frame (w : World) (c : Container) (k v k₂ v₂ k' : Nat) :
    (withContextOp c k v).scopedRef = c.scopedRef ∧
    scopedCacheOf w (withContextOp c k v) = scopedCacheOf w c ∧
    (withContextOp c k v).contextParams = updA c.contextParams k v ∧
    getValueCtx (withContextOp c k v) k = some v ∧
    (k' ≠ k → getValueCtx (withContextOp c k v) k' = getValueCtx c k') ∧
    (k' ≠ k → k' ≠ k₂ →
      getValueCtx (withContextOp (withContextOp c k v) k₂ v₂) k' = getValueCtx c k') ∧
    (k₂ ≠ k →
      getValueCtx (withContextOp (withContextOp c k v) k₂ v₂) k = some v ∧
      getValueCtx (withContextOp (withContextOp c k v) k₂ v₂) k₂ = some v₂) := by
  refine ⟨rfl, rfl, rfl, ?_, ?_, ?_, ?_⟩
  · exact lookupA_updA_self c.contextParams k v
  · intro hne
    exact lookupA_updA_other c.contextParams k k' v (fun he => hne he.symm)
  · intro hne hne₂
    show lookupA (updA (updA c.contextParams k v) k₂ v₂) k' = lookupA c.contextParams k'
    rw [lookupA_updA_other _ k₂ k' v₂ (fun he => hne₂ he.symm)]
    exact lookupA_updA_other c.contextParams k k' v (fun he => hne he.symm)
  · intro hne
    constructor
    · show lookupA (updA (updA c.contextParams k v) k₂ v₂) k = some v
      rw [lookupA_updA_other _ k₂ k v₂ hne]
      exact lookupA_updA_self c.contextParams k v
    · exact lookupA_updA_self (updA c.contextParams k v) k₂ v₂

theorem C8_witness :
    getValueCtx (withContextOp (withContextOp newContainer 1 10) 2 20) 1 = some 10 ∧
    getValueCtx (withContextOp (withContextOp newContainer 1 10) 2 20) 2 = some 20 :=
  (C8_withContext_frame newWorld newContainer 1 10 2 20 3).2.2.2.2.2.2 (by decide)

/-- C9 (amended): a type with no registry entry at all fails Get and
Invoke with a NotRegistered error naming it, but a type present only as a
placeholder (nil constructor required by another registration) passes the
registration check and fails the lifetime check instead, yielding an
UnknownLifetime error — not NotRegistered. -/
theorem C9_not_registered (w : World) (c : Container) (f : Nat) (T : RType) (ps : List RType)
    (hT : T ≠ RType.ctx) :
    (lookupA w.constructors T = none →
      getValue f w c T = (.err (.notRegistered T), w)) ∧
    (lookupA w.constructors T = none →
      invoke f c w (T :: ps) = (.err (.notRegistered T), w)) ∧
    (lookupA w.constructors T = some none → lookupA w.lifetimes T = none →
      getValue f w c T = (.err (.unknownLifetime T), w)) ∧
    (lookupA w.constructors T = some none → lookupA w.lifetimes T = none →
      invoke f c w (T :: ps) = (.err (.unknownLifetime T), w)) := by
  have h₁ : lookupA w.constructors T = none →
      getValue f w c T = (.err (.notRegistered T), w) := by
    intro h
    unfold getValue
    rw [if_neg hT, h]
  have h₃ : lookupA w.constructors T = some none → lookupA w.lifetimes T = none →
      getValue f w c T = (.err (.unknownLifetime T), w) := by
    intro h hl
    unfold getValue
    rw [if_neg hT, h]
    dsimp only
    rw [hl]
  exact ⟨h₁, fun h => invoke_cons_err (h₁ h), h₃,
    fun h hl => invoke_cons_err (h₃ h hl)⟩

theorem C9_witness :
    lookupA newWorld.constructors tyA = none ∧
    getValue 3 newWorld newContainer tyA = (.err (.notRegistered tyA), newWorld) :=
  ⟨by decide,
    (C9_not_registered newWorld newContainer 3 tyA [] (by decide)).1 (by decide)⟩

/-- C9 counterexample: with only B(a A) registered, A sits in the registry
as a placeholder; Get(A) fails with UnknownLifetime, not with the
NotRegistered error the claim promises. -/
theorem C9_counterexample :
    lookupA exPlaceholderW.constructors tyA = some none ∧
    (getValue 3 exPlaceholderW newContainer tyA).1 = .err (.unknownLifetime tyA) ∧
    (getValue 3 exPlaceholderW newContainer tyA).1 ≠ .err (.notRegistered tyA) := by
  decide

/-- C10 (amended): top-level resolution failures — missing registry entry,
missing lifetime — are returned as error values with the state untouched,
and resolution completes without a panic whenever every type transitively
required has a real constructor; but when a transitive dependency exists
only as a placeholder, nested argument resolution calls its nil inner
constructor, a run-time panic rather than a returned error (see the
counterexample). -/
theorem C10_resolution_safety (fuel : Nat) (w : World) (c : Container) (T : RType)
    (info : CtorInfo) (lt : Nat)
    (hT : T ≠ RType.ctx) :
    (lookupA w.constructors T = none →
      getValue fuel w c T = (.err (.notRegistered T), w)) ∧
    (∀ o, lookupA w.constructors T = some o → lookupA w.lifetimes T = none →
      getValue fuel w c T = (.err (.unknownLifetime T), w)) ∧
    (lookupA w.constructors T = some (some info) → lookupA w.lifetimes T = some lt →
      WfPair w.graph w.constructors →
      RealReach w.graph w.constructors T →
      NoLongChain w.graph (some T) fuel →
      (c.scope = requestScope → ∃ i, c.scopedRef = some i) →
      ∃ v w', getValue fuel w c T = (.ok v, w')) := by
  refine ⟨?_, ?_, ?_⟩
  · intro h
    unfold getValue
    rw [if_neg hT, h]
  · intro o ho hl
    unfold getValue
    rw [if_neg hT, ho]
    dsimp only
    rw [hl]
  · intro ho hlt hwf hreal hchain href
    exact getValue_ok fuel w c T info lt hT ho hlt hwf hreal hchain href

theorem C10_witness :
    ∃ v w', getValue 2 exTransientW newContainer tyA = (.ok v, w') :=
  (C10_resolution_safety 2 exTransientW newContainer tyA ⟨tyA, []⟩ Transient
    (by decide)).2.2 (by decide) (by decide)
    (wfPairB_correct (by decide))
    (realReach_of_allReal (by decide) tyA)
    (by
      have hclean : detectCyclicDependencies exTransientW.graph
          (keysOf exTransientW.graph) = .clean := by decide
      have hacyc := detect_clean_acyclic (fun _ hk => hk) hclean
      have h2 : (keysOf exTransientW.graph).dedup.length + 1 = 2 := by decide
      exact h2 ▸ noLongChain_of_acyclic hacyc (some tyA))
    (fun hsc => absurd hsc (by decide))

/-- C10 counterexample: with only B(a A) registered, B itself has a real
constructor and a lifetime, yet resolving B calls the nil inner
constructor stored for its placeholder dependency A — a run-time panic
(modeled as `crash`), not a returned error. -/
theorem C10_counterexample :
    lookupA exPlaceholderW.constructors tyB = some (some ⟨tyB, [tyA]⟩) ∧
    lookupA exPlaceholderW.lifetimes tyB = some Transient ∧
    (getValue 3 exPlaceholderW newContainer tyB).1 = .crash := by
  decide

end DI
